import Mathlib

/-!
# Verification of the wap technology-fingerprinting engine

A shallow embedding of the matching and resolution engine of the `wap`
package (files `wap/structs.py`, `wap/match.py`, and the key-canonicalization
part of `wap/load.py`), together with theorems settling the frozen claims
about it.

Modelling conventions:

* Python `str` values are Lean `String`s.  The Python string primitives used
  by the engine (`str.replace`, `str.strip`, `str.lower`) are re-implemented
  below as structurally recursive functions on `List Char` so that concrete
  computations reduce inside the kernel.  They implement Python's behaviour
  for the inputs the engine feeds them (ASCII case folding; the engine never
  replaces an empty needle, where Python's `replace` behaves differently).
* A compiled regular expression `re.Pattern` is modelled by its observable
  behaviour at the single call site the engine uses, `regex.search(value)`:
  a function `String → Option PyMatch` returning the whole match (`group()`)
  and the capture groups (`groups()`, `none` for a non-participating group).
  The one concrete regex the engine itself constructs — the ternary-version
  regex `\INDEX\?([^:]+):(.*)$` of `_resolve_version` — is implemented
  exactly (`ternarySearch` below).
* Python dicts are association lists in insertion order; dict assignment is
  `pyDictInsert` (overwrite in place, else append), and `d.get(k, [])` is
  `List.lookup` with a default.
* `list(set(...))` in `resolve_techno_matches` is modelled by `pydedup`:
  CPython treats an element as a duplicate iff an element with an equal hash
  compares equal under `__eq__`; the `__hash__` of `PatternMatch` (the triple
  of technology name, pattern key, pattern value) is modelled as injective,
  and the unspecified set iteration order as first-occurrence order.
* The `KeyError` that `technologies[imply.name]` can raise is modelled by
  `Except PyError`; Python's unbounded recursion in `_resolve_implies_inner`
  is modelled with an explicit fuel parameter, with exhaustion a distinct
  error value (theorems show the chosen fuel is never exhausted).
-/

/-- Errors a resolution run can surface.  `keyError` models Python's built-in
`KeyError` from a failed dict lookup.  `missingTechnologyReference` is
modelled from the spec: the distinct data-integrity error §7 calls for; the
source never raises it.  `fuelExhausted` is an artifact of the fuel-based
model of recursion (proved unreachable). -/
inductive PyError where
  | keyError (key : String)
  | missingTechnologyReference (key : String)
  | fuelExhausted
deriving DecidableEq

/-- The observable part of a Python `re.Match`: `group0` is `m.group()` and
`groups` is `list(m.groups())` (a non-participating group is `none`). -/
structure PyMatch where
  group0 : String
  groups : List (Option String)

/-- Python truthiness of `None`-or-`str`: `None` and `""` are falsy. -/
def pyTruthy : Option String → Bool
  | none => false
  | some s => !(s == "")

/-- Python's `match or ""` idiom: `None` (and `""`) become `""`. -/
def orEmpty : Option String → String
  | none => ""
  | some s => s

/-- The whitespace characters stripped by Python's `str.strip()` (ASCII part). -/
def pyIsSpace (c : Char) : Bool :=
  c == ' ' || c == '\t' || c == '\n' || c == '\r' || c == '\x0b' || c == '\x0c'

/-- Python `str.strip()`. -/
def pyStrip (s : String) : String :=
  String.mk (((s.data.dropWhile pyIsSpace).reverse.dropWhile pyIsSpace).reverse)

/-- ASCII lower-casing of one character, as Python's `str.lower` does on the
ASCII range (the engine's keys are ASCII; Unicode folding is not modelled). -/
def pyCharLower (c : Char) : Char :=
  if 'A' ≤ c ∧ c ≤ 'Z' then Char.ofNat (c.toNat + 32) else c

/-- Python `str.lower()` (ASCII range). -/
def pyLower (s : String) : String :=
  String.mk (s.data.map pyCharLower)

/-- Worker for `pyReplace`: left-to-right, non-overlapping replacement.
`skip` counts characters of a just-replaced needle still to be consumed. -/
def replaceAux (old new : List Char) : List Char → Nat → List Char
  | [], _ => []
  | _ :: rest, skip + 1 => replaceAux old new rest skip
  | c :: rest, 0 =>
    if old.isPrefixOf (c :: rest) then new ++ replaceAux old new rest (old.length - 1)
    else c :: replaceAux old new rest 0

/-- Python `s.replace(old, new)` for a non-empty `old` (the engine only ever
replaces the non-empty needles `\INDEX` and a matched ternary expression). -/
def pyReplace (s old new : String) : String :=
  if old.data.isEmpty then s else String.mk (replaceAux old.data new.data s.data 0)

/-- `(.*)$` at the end of the ternary regex, Python semantics: `.` does not
match a newline, and `$` matches at the end of the string or just before a
single trailing newline.  Returns the text captured by `(.*)`, or `none`
when the regex cannot match from this start position. -/
def dollarTail (after : List Char) : Option (List Char) :=
  if '\n' ∈ after then
    if after.getLast? = some '\n' ∧ '\n' ∉ after.dropLast then some after.dropLast else none
  else some after

/-- One anchored attempt of the ternary regex `\INDEX\?([^:]+):(.*)$` at the
start of `s`; `marker` is the literal `\INDEX?`.  Returns
`(group0, trueBranch, falseBranch)`. -/
def ternaryAt (marker : List Char) (s : List Char) : Option (List Char × List Char × List Char) :=
  if marker.isPrefixOf s then
    let rest := s.drop marker.length
    let g1 := rest.takeWhile (fun c => !(c == ':'))
    if g1.isEmpty then none
    else
      match rest.drop g1.length with
      | ':' :: after =>
        match dollarTail after with
        | some g2 => some (marker ++ g1 ++ ':' :: g2, g1, g2)
        | none => none
      | _ => none
  else none

/-- Left-to-right scan implementing `re.search` for the ternary regex. -/
def ternarySearchAux (marker : List Char) : List Char → Option (String × String × String)
  | [] => none
  | c :: rest =>
    match ternaryAt marker (c :: rest) with
    | some (w, g1, g2) => some (String.mk w, String.mk g1, String.mk g2)
    | none => ternarySearchAux marker rest

/-- `re.search("\\\\{}\\?([^:]+):(.*)$".format(index), version)` from
`_resolve_version`: the whole matched ternary expression, its true branch
and its false branch. -/
def ternarySearch (index : Nat) (version : String) : Option (String × String × String) :=
  ternarySearchAux ('\\' :: (toString index).data ++ ['?']) version.data

/-- One iteration of the `for index, match in enumerate(matches)` loop of
`_resolve_version` (match.py lines 331-346), acting on the working string
`resolved`.  Note that when the ternary for this index is found, the source
replaces it inside the *original* `version` template (`version.replace`),
not inside `resolved`. -/
def versionStep (version : String) (resolved : String) (im : Nat × Option String) : String :=
  let r1 :=
    match ternarySearch im.1 version with
    | some (whole, tb, fb) => pyReplace version whole (if pyTruthy im.2 then tb else fb)
    | none => resolved
  pyReplace (pyStrip r1) ("\\" ++ toString im.1) (orEmpty im.2)

/-- The loop of `_resolve_version` over `matches = [m.group()] + list(m.groups())`,
starting from `resolved = version`.  (The source's `len(ternary) == 3` guard
always holds: the ternary regex has exactly two capture groups.) -/
def resolveVersionCore (version : String) (pymatches : List (Option String)) : String :=
  pymatches.enum.foldl (versionStep version) version

/-- Modelled from the spec (§4.2, step 1): identical to `versionStep` except
that the chosen ternary branch replaces the ternary expression within the
*current working string*, as the spec's words require. -/
def versionStepSpec (version : String) (resolved : String) (im : Nat × Option String) : String :=
  let r1 :=
    match ternarySearch im.1 version with
    | some (whole, tb, fb) => pyReplace resolved whole (if pyTruthy im.2 then tb else fb)
    | none => resolved
  pyReplace (pyStrip r1) ("\\" ++ toString im.1) (orEmpty im.2)

/-- Modelled from the spec: the §4.2 version-resolution loop, differing from
`resolveVersionCore` only in performing ternary substitution on the evolving
working string. -/
def resolveVersionCoreSpec (version : String) (pymatches : List (Option String)) : String :=
  pymatches.enum.foldl (versionStepSpec version) version

/-- `wap.structs.Imply`. -/
structure Imply where
  name : String
  confidence : Int

/-- `wap.structs.Exclude`. -/
structure Exclude where
  name : String

/-- `wap.structs.Pattern`.  The compiled regex is carried as its `search`
behaviour (see the module header). -/
structure Pattern where
  value : String
  search : String → Option PyMatch
  confidence : Int
  version : String
  key : String

/-- `wap.structs.Technology`.  The display metadata (`categories`, `icon`,
`website`, `cpe`) is not consulted by any of the claims' code paths and is
omitted.  Keyed pattern collections are insertion-ordered association lists,
like Python dicts. -/
structure Technology where
  name : String
  url : List Pattern
  headers : List (String × List Pattern)
  cookies : List (String × List Pattern)
  html : List Pattern
  meta : List (String × List Pattern)
  scripts : List Pattern
  js : List (String × List Pattern)
  implies : List Imply
  excludes : List Exclude

/-- `wap.structs.PatternMatch`. -/
structure PatternMatch where
  technology : Technology
  pattern : Pattern
  version : String

/-- `wap.structs.TechMatch`. -/
structure TechMatch where
  technology : Technology
  confidence : Int
  version : String

/-- `PatternMatch.__eq__` exactly as written in structs.py lines 203-206:
the second and third conjuncts compare `self.pattern` with itself (`o`'s
pattern is never consulted). -/
def PatternMatch.pyEq (s o : PatternMatch) : Bool :=
  s.technology.name == o.technology.name
    && s.pattern.key == s.pattern.key
    && s.pattern.value == s.pattern.value

/-- `PatternMatch.__eq__` invoked with a `TechMatch` as `o`, as happens in
`extract_techno_matches`'s membership test `pattern_match not in
techno_matches`: only `o.technology.name` is accessed, so the call succeeds. -/
def patternMatchEqTech (s : PatternMatch) (o : TechMatch) : Bool :=
  s.technology.name == o.technology.name
    && s.pattern.key == s.pattern.key
    && s.pattern.value == s.pattern.value

/-- `PatternMatch.__hash__`: the triple hashed in structs.py lines 208-211
(modelled as the triple itself, i.e. an injective hash). -/
def hashTriple (p : PatternMatch) : String × String × String :=
  (p.technology.name, p.pattern.key, p.pattern.value)

/-- `TechMatch.__eq__`: technology-name equality (structs.py line 235). -/
def TechMatch.pyEq (s o : TechMatch) : Bool :=
  s.technology.name == o.technology.name

/-- The unkeyed string-valued fields `match_str` can be called with. -/
inductive StrField where
  | url
  | html

/-- Dynamic field access `tech[field]` for the unkeyed string fields. -/
def Technology.strFieldGet (tech : Technology) : StrField → List Pattern
  | StrField.url => tech.url
  | StrField.html => tech.html

/-- The keyed fields `match_pairs` can be called with. -/
inductive PairField where
  | cookies
  | headers
  | meta
  | js
deriving DecidableEq

/-- Dynamic field access `tech[field]` for the keyed fields. -/
def Technology.pairFieldGet (tech : Technology) : PairField → List (String × List Pattern)
  | PairField.cookies => tech.cookies
  | PairField.headers => tech.headers
  | PairField.meta => tech.meta
  | PairField.js => tech.js

/-- `wap.match._resolve_version`.  The regex is consulted only through
`regex.search(value)`; a match object is always truthy. -/
def resolve_version (version : String) (search : String → Option PyMatch) (value : String) : String :=
  if version == "" then version
  else
    match search value with
    | none => version
    | some m => resolveVersionCore version (some m.group0 :: m.groups)

/-- `wap.match._match_patterns`. -/
def match_patterns (patterns : List Pattern) (technology : Technology) (value : String) : List PatternMatch :=
  patterns.flatMap (fun pattern =>
    if (pattern.search value).isSome then
      [{ technology := technology, pattern := pattern,
         version := resolve_version pattern.version pattern.search value }]
    else [])

/-- `wap.match.match_str`. -/
def match_str (tech : Technology) (field : StrField) (value : String) : List PatternMatch :=
  match_patterns (tech.strFieldGet field) tech value

/-- `wap.match.match_url`. -/
def match_url (technology : Technology) (url : String) : List PatternMatch :=
  match_str technology StrField.url url

/-- `wap.match.match_html`. -/
def match_html (technology : Technology) (html : String) : List PatternMatch :=
  match_str technology StrField.html html

/-- `wap.match.match_list` (the only caller passes the `scripts` field). -/
def match_list (tech : Technology) (values : List String) : List PatternMatch :=
  values.flatMap (fun value => match_patterns tech.scripts tech value)

/-- `wap.match.match_scripts`. -/
def match_scripts (technology : Technology) (scripts : List String) : List PatternMatch :=
  match_list technology scripts

/-- Python dict assignment `d[k] = v`: overwrite in place if the key exists,
otherwise append. -/
def pyDictInsert {β : Type} (d : List (String × β)) (k : String) (v : β) : List (String × β) :=
  if d.any (fun kv => kv.1 == k) then d.map (fun kv => if kv.1 == k then (k, v) else kv)
  else d ++ [(k, v)]

/-- The cookie-key lower-casing loop at the top of `match_pairs`
(match.py lines 276-279): `pairs_local[k.lower()] = pairs[k]` for each key. -/
def lowerDict (pairs : List (String × List String)) : List (String × List String) :=
  pairs.foldl (fun acc kv => pyDictInsert acc (pyLower kv.1) kv.2) []

/-- `wap.match.match_pairs`.  (`tech[field][key] or []` is the identity here:
the model stores pattern lists, never `None`.) -/
def match_pairs (tech : Technology) (field : PairField) (pairs : List (String × List String)) : List PatternMatch :=
  let pairs_local := if field = PairField.cookies then lowerDict pairs else pairs
  (tech.pairFieldGet field).flatMap (fun kv =>
    let patterns := kv.2
    let values := (List.lookup kv.1 pairs_local).getD []
    values.flatMap (fun value => match_patterns patterns tech value))

/-- `wap.match.match_js_vars`. -/
def match_js_vars (technology : Technology) (js_vars : List (String × List String)) : List PatternMatch :=
  match_pairs technology PairField.js js_vars

/-- `wap.match.match_cookies`. -/
def match_cookies (technology : Technology) (cookies : List (String × List String)) : List PatternMatch :=
  match_pairs technology PairField.cookies cookies

/-- `wap.match.match_metas`. -/
def match_metas (technology : Technology) (metas : List (String × List String)) : List PatternMatch :=
  match_pairs technology PairField.meta metas

/-- `wap.match.match_headers`. -/
def match_headers (technology : Technology) (headers : List (String × List String)) : List PatternMatch :=
  match_pairs technology PairField.headers headers

/-- `wap.match.match_all`.  Absent inputs (`None`) and empty inputs are both
falsy in Python and are modelled as `""` / `[]`; each truthiness test
short-circuits the whole field.  Fields are evaluated per technology in the
source's registration order: url, headers, cookies, html, metas, scripts,
js_vars. -/
def match_all (technologies : List (String × Technology)) (url html : String)
    (scripts : List String) (cookies metas headers js_vars : List (String × List String)) :
    List PatternMatch :=
  (technologies.map Prod.snd).flatMap (fun t =>
    (if url ≠ "" then match_url t url else []) ++
    (if headers ≠ [] then match_headers t headers else []) ++
    (if cookies ≠ [] then match_cookies t cookies else []) ++
    (if html ≠ "" then match_html t html else []) ++
    (if metas ≠ [] then match_metas t metas else []) ++
    (if scripts ≠ [] then match_scripts t scripts else []) ++
    (if js_vars ≠ [] then match_js_vars t js_vars else []))

/-- Modelled from the spec (§4.1): `match_all` with the short-circuiting of
absent/empty inputs removed — every field is evaluated unconditionally.
The spec asserts this must not change results. -/
def match_all_noshort (technologies : List (String × Technology)) (url html : String)
    (scripts : List String) (cookies metas headers js_vars : List (String × List String)) :
    List PatternMatch :=
  (technologies.map Prod.snd).flatMap (fun t =>
    match_url t url ++
    match_headers t headers ++
    match_cookies t cookies ++
    match_html t html ++
    match_metas t metas ++
    match_scripts t scripts ++
    match_js_vars t js_vars)

/-- `list(set(pattern_matches))` in `resolve_techno_matches`: an element is
dropped iff an already-kept element has an equal hash and compares equal
under `PatternMatch.__eq__` (CPython set semantics with the triple hash
modelled as injective; iteration order modelled as insertion order). -/
def pydedup (pms : List PatternMatch) : List PatternMatch :=
  pms.foldl (fun acc pm =>
    if acc.any (fun q => hashTriple q == hashTriple pm && PatternMatch.pyEq q pm) then acc
    else acc ++ [pm]) []

/-- The inner `for pt_match in pattern_matches` accumulation of
`extract_techno_matches` (match.py lines 375-384), computing the confidence
and version for the technology of `pm` over the whole input list. -/
def extractInner (pms : List PatternMatch) (pm : PatternMatch) : Int × String :=
  pms.foldl (fun cv pt =>
    if PatternMatch.pyEq pt pm then
      (min 100 (cv.1 + pt.pattern.confidence),
       if cv.2.length < pt.version.length && pt.version.length ≤ 10 then pt.version else cv.2)
    else cv) (0, "")

/-- `wap.match.extract_techno_matches`.  The membership test is
`pattern_match not in techno_matches`, which invokes `PatternMatch.__eq__`
against each accumulated `TechMatch` (both that method and
`TechMatch.__eq__` reduce to technology-name equality here, so the
comparison direction CPython picks does not matter). -/
def extract_techno_matches (pms : List PatternMatch) : List TechMatch :=
  pms.foldl (fun acc pm =>
    if acc.any (fun tm => patternMatchEqTech pm tm) then acc
    else
      let cv := extractInner pms pm
      acc ++ [{ technology := pm.technology, confidence := cv.1, version := cv.2 }]) []

/-- One element of the `implies` list comprehension of
`_resolve_implies_inner` (match.py lines 414-421): look the implied name up
in the rule set — raising `KeyError` on a missing name — and build the
derived `TechMatch` with clamped confidence and empty version. -/
def deriveImply (technologies : List (String × Technology)) (tm : TechMatch)
    (imp : Imply) : Except PyError TechMatch :=
  match List.lookup imp.name technologies with
  | some t => Except.ok { technology := t,
                          confidence := min imp.confidence tm.confidence,
                          version := "" }
  | none => Except.error (PyError.keyError imp.name)

/-- The `implies` list comprehension of `_resolve_implies_inner`: all
lookups happen here, before any recursion. -/
def buildImplies (technologies : List (String × Technology)) (tm : TechMatch) :
    Except PyError (List TechMatch) :=
  tm.technology.implies.mapM (deriveImply technologies tm)

/-- `wap.match._resolve_implies_inner`, with Python's unbounded recursion
carried by an explicit fuel parameter (see the module header). -/
def resolve_implies_inner (technologies : List (String × Technology)) :
    Nat → List TechMatch → TechMatch → Except PyError (List TechMatch)
  | 0, _, _ => Except.error PyError.fuelExhausted
  | fuel + 1, acc, tm =>
    if acc.any (fun x => TechMatch.pyEq x tm) then Except.ok acc
    else
      match buildImplies technologies tm with
      | Except.error e => Except.error e
      | Except.ok derived =>
        derived.foldlM (fun a d => resolve_implies_inner technologies fuel a d) (acc ++ [tm])

/-- The recursion budget handed to each top-level `resolve_implies_inner`
call: strictly more than the number of distinct technology names the
recursion can ever append. -/
def impliesFuel (technologies : List (String × Technology)) : Nat :=
  technologies.length + 2

/-- `wap.match.resolve_implies`. -/
def resolve_implies (techno_matches : List TechMatch)
    (technologies : List (String × Technology)) : Except PyError (List TechMatch) :=
  techno_matches.foldlM
    (fun acc tm => resolve_implies_inner technologies (impliesFuel technologies) acc tm) []

/-- `wap.match.resolve_excludes`: pop the first remaining match, keep it,
drop every remaining match whose technology name is in its exclude list. -/
def resolve_excludes : List TechMatch → List TechMatch
  | [] => []
  | tm :: rest =>
    let excludes := tm.technology.excludes.map (fun ex => ex.name)
    tm :: resolve_excludes (rest.filter (fun x => !(excludes.contains x.technology.name)))
termination_by l => l.length
decreasing_by
  simpa using Nat.lt_succ_of_le (List.length_filter_le _ _)

/-- `wap.match.resolve_techno_matches`. -/
def resolve_techno_matches (technologies : List (String × Technology))
    (pattern_matches : List PatternMatch) : Except PyError (List TechMatch) :=
  let deduped := pydedup pattern_matches
  let techno_matches := extract_techno_matches deduped
  match resolve_implies techno_matches technologies with
  | Except.error e => Except.error e
  | Except.ok tms => Except.ok (resolve_excludes tms)

/-- `wap.match.discover_technologies`: it accepts no `js_vars` argument and
calls `match_all` without one, so `js_vars` is `None` (modelled `[]`). -/
def discover_technologies (technologies : List (String × Technology)) (url html : String)
    (scripts : List String) (cookies metas headers : List (String × List String)) :
    Except PyError (List TechMatch) :=
  resolve_techno_matches technologies
    (match_all technologies url html scripts cookies metas headers [])

/-- The keyed-mapping branch of `wap.load._transform_patterns` (load.py lines
147-155): each rule key is lower-cased unless `case_sensitive` (which
`load_apps` sets only for the `js` field), and the parsed pattern list is
stored under the canonicalized key by dict assignment.  `_parse_pattern` —
which needs the regex compiler — is abstracted as `parsePattern`; note the
source passes the *original* key to it, so `Pattern.key` keeps its case.
(The source's `parsed["main"]` unwrapping only concerns the string/list
input shape used for unkeyed fields and is outside this branch.) -/
def transform_patterns_keyed (parsePattern : String → String → Pattern)
    (case_sensitive : Bool) (patterns : List (String × List String)) :
    List (String × List Pattern) :=
  patterns.foldl (fun parsed kv =>
    let name := if case_sensitive then kv.1 else pyLower kv.1
    pyDictInsert parsed name (kv.2.map (fun p => parsePattern p kv.1))) []

/-! ## Helper definitions used by theorem statements and proofs -/

/-- The input pattern matches belonging to technology name `t` — the hits the
inner loop of `extract_techno_matches` accumulates over (its `!=` test
reduces to technology-name inequality). -/
def hitsFor (pms : List PatternMatch) (t : String) : List PatternMatch :=
  pms.filter (fun pm => pm.technology.name == t)

/-- The version-selection fold of `extract_techno_matches`: the longest
version of length at most 10, a new candidate winning only when strictly
longer, starting from the empty string. -/
def bestVersion (vs : List String) : String :=
  vs.foldl (fun v pv => if v.length < pv.length && pv.length ≤ 10 then pv else v) ""

/-- The set of technology names stored in the rule-set mapping's values:
every technology the implication recursion can append after its first step. -/
def vNames (techs : List (String × Technology)) : Finset String :=
  (techs.map (fun kv => kv.2.name)).toFinset

/-- The set of technology names already accumulated. -/
def namesOf (acc : List TechMatch) : Finset String :=
  (acc.map (fun tm => tm.technology.name)).toFinset

/-- Fuel needed by one `resolve_implies_inner` call beyond the names still
missing from the accumulator: 1 when the argument's technology is a rule-set
value (as every recursively visited one is), 2 for an arbitrary top-level
argument. -/
def innerCost (techs : List (String × Technology)) (tm : TechMatch) : Nat :=
  if tm.technology.name ∈ vNames techs then 1 else 2

/-- `x` was derived by the implication resolver: it carries an empty version
and its confidence is `min(imply.confidence, parent.confidence)` for some
parent match `p` in the result and some `Imply` declared by `p`'s technology
that looks up to `x`'s technology. -/
def ImpliedFrom (techs : List (String × Technology)) (res : List TechMatch)
    (x : TechMatch) : Prop :=
  x.version = "" ∧ ∃ p ∈ res, ∃ imp ∈ p.technology.implies,
    List.lookup imp.name techs = some x.technology ∧
    x.confidence = min imp.confidence p.confidence

/-- Erase the `js` pattern collection of a technology (all other fields,
including everything `discover_technologies` can consult, are kept). -/
def Technology.stripJs (t : Technology) : Technology :=
  { t with js := [] }

/-- Erase the `js` collections throughout a rule set. -/
def stripTechs (techs : List (String × Technology)) : List (String × Technology) :=
  techs.map (fun kv => (kv.1, kv.2.stripJs))

/-- Erase the `js` collection inside a pattern match's technology. -/
def pmStrip (pm : PatternMatch) : PatternMatch :=
  { pm with technology := pm.technology.stripJs }

/-- Erase the `js` collection inside a technology match's technology. -/
def tmStrip (tm : TechMatch) : TechMatch :=
  { tm with technology := tm.technology.stripJs }

/-- The externally observable content of a `TechMatch`: technology name,
confidence, and version. -/
def obsTM (tm : TechMatch) : String × Int × String :=
  (tm.technology.name, tm.confidence, tm.version)

/-! ## Concrete values for counterexamples and witnesses -/

/-- A pattern with key `k1`, value `v1`, and a never-matching regex. -/
def demoPattern1 : Pattern :=
  { value := "v1", search := fun _ => none, confidence := 100, version := "", key := "k1" }

/-- A pattern with key `k2`, value `v2`, and a never-matching regex. -/
def demoPattern2 : Pattern :=
  { value := "v2", search := fun _ => none, confidence := 100, version := "", key := "k2" }

/-- A bare technology named `a`. -/
def demoTechA : Technology := ⟨"a", [], [], [], [], [], [], [], [], []⟩

/-- A match of `demoTechA` through `demoPattern1`. -/
def demoPM1 : PatternMatch := ⟨demoTechA, demoPattern1, ""⟩

/-- A match of `demoTechA` through `demoPattern2`. -/
def demoPM2 : PatternMatch := ⟨demoTechA, demoPattern2, ""⟩

/-- A pattern whose regex matches any value, including the empty string
(e.g. a compiled empty pattern string), declared on `url`. -/
def demoPatternAll : Pattern :=
  { value := "", search := fun _ => some ⟨"", []⟩, confidence := 100, version := "", key := "" }

/-- A technology whose single url pattern matches every string. -/
def demoTechUrl : Technology := ⟨"u", [demoPatternAll], [], [], [], [], [], [], [], []⟩

/-- A pattern whose regex matches exactly the non-empty strings. -/
def demoPatternNonEmpty : Pattern :=
  { value := "x", search := fun s => if s == "" then none else some ⟨s, []⟩,
    confidence := 100, version := "", key := "" }

/-- A technology whose single url pattern matches exactly non-empty strings. -/
def demoTechNonEmpty : Technology :=
  ⟨"n", [demoPatternNonEmpty], [], [], [], [], [], [], [], []⟩

/-- Stand-in for `_parse_pattern` in the load model: a pattern whose regex
matches everything, keeping the raw value and the original key. -/
def demoParse : String → String → Pattern :=
  fun v k => { value := v, search := fun _ => some ⟨"", []⟩,
               confidence := 100, version := "", key := k }

/-- The header patterns of a rule set declaring the single header key
`Server`, as `load_apps` loads them (`case_sensitive = False`). -/
def demoLoadedHeaders : List (String × List Pattern) :=
  transform_patterns_keyed demoParse false [("Server", ["x"])]

/-- A technology carrying `demoLoadedHeaders`. -/
def demoTechHdr : Technology := ⟨"t", [], demoLoadedHeaders, [], [], [], [], [], [], []⟩

/-- Technology `A` implying `B` (confidence ceiling 100). -/
def implTechA : Technology := ⟨"A", [], [], [], [], [], [], [], [⟨"B", 100⟩], []⟩

/-- Technology `B` implying `A` (confidence ceiling 100): a two-cycle with
`implTechA`. -/
def implTechB : Technology := ⟨"B", [], [], [], [], [], [], [], [⟨"A", 100⟩], []⟩

/-- A rule set containing the mutually-implying `A` and `B`. -/
def implTechs : List (String × Technology) := [("A", implTechA), ("B", implTechB)]

/-- A technology whose first `implies` entry names `ghost`, absent from
`ghostTechs`. -/
def ghostTech : Technology := ⟨"G", [], [], [], [], [], [], [], [⟨"ghost", 50⟩], []⟩

/-- A rule set containing only `ghostTech`: the name `ghost` is dangling. -/
def ghostTechs : List (String × Technology) := [("G", ghostTech)]

/-- `implTechA` with a non-empty `js` pattern collection: observationally
indistinguishable from `implTechA` through `discover_technologies`. -/
def implTechAJs : Technology :=
  ⟨"A", [], [], [], [], [], [], [("v", [demoPattern1])], [⟨"B", 100⟩], []⟩

/-- Technology `C` excluding `A`. -/
def exclTechC : Technology := ⟨"C", [], [], [], [], [], [], [], [], [⟨"A"⟩]⟩

/-- Technology `A` excluding `B`. -/
def exclTechA : Technology := ⟨"A", [], [], [], [], [], [], [], [], [⟨"B"⟩]⟩

/-- Technology `B` excluding `A`: mutually exclusive with `exclTechA`. -/
def exclTechB : Technology := ⟨"B", [], [], [], [], [], [], [], [], [⟨"A"⟩]⟩

/-- The `C` match: first in discovery order, excludes `A`. -/
def exclTmC : TechMatch := ⟨exclTechC, 100, ""⟩

/-- The `A` match: precedes `B`, mutually exclusive with it. -/
def exclTmA : TechMatch := ⟨exclTechA, 100, ""⟩

/-- The `B` match: follows `A`, mutually exclusive with it. -/
def exclTmB : TechMatch := ⟨exclTechB, 100, ""⟩

/-! ## Model validation against the repository's own test vectors
(tests/test_version.py) -/

/-- `resolve_version("\1?Enterprise:Community", ..., ".../default")` picks the
false branch when group 1 did not participate. -/
theorem modelCheck_ternary_false :
    resolveVersionCore "\\1?Enterprise:Community" [some "skin/frontend/default", none] =
      "Community" := by decide

/-- `resolve_version("\1?Enterprise:Community", ..., ".../enterprise")` picks
the true branch when group 1 matched. -/
theorem modelCheck_ternary_true :
    resolveVersionCore "\\1?Enterprise:Community"
      [some "skin/frontend/enterprise", some "enterprise"] = "Enterprise" := by decide

/-- `resolve_version("\1", ..., "3.3/mathjax.js")` extracts the group text. -/
theorem modelCheck_backref :
    resolveVersionCore "\\1" [some "3.3/mathjax.js", some "3.3"] = "3.3" := by decide

/-! ## C1 -/

/-- C1: the claim is falsified by the code.  `PatternMatch.__eq__`
(structs.py lines 203-206) compares `self.pattern.key` and
`self.pattern.value` against themselves, so equality is decided by the
technology name alone: `demoPM1` and `demoPM2` share only the technology
name, differ in both pattern key and pattern value (hence in the `__hash__`
triple), yet compare equal.  The spec's triple (name, key, value) — which
the class's own `__hash__` uses, making the code internally inconsistent
with Python's eq/hash contract — would make them unequal. -/
theorem claim_C1_eval :
    PatternMatch.pyEq demoPM1 demoPM2 = true ∧
    hashTriple demoPM1 ≠ hashTriple demoPM2 ∧
    demoPM1.pattern.key ≠ demoPM2.pattern.key ∧
    demoPM1.pattern.value ≠ demoPM2.pattern.value := by
  refine ⟨by decide, by decide, by decide, by decide⟩

/-! ## C2 -/

/-- C2: counterexample to the claim as stated.  On the template
`\0-\1?yes:no` with a whole match `X` and group 1 matching `v`, the source
(`resolveVersionCore`) yields `\0-yes`: resolving the index-1 ternary
rebuilt the working string from the original template, discarding the
substitution of `\0` by `X` already performed for index 0.  The behaviour
the claim describes (`resolveVersionCoreSpec`, substitution within the
current working string) yields `X-yes`. -/
theorem claim_C2_counterexample :
    resolveVersionCore "\\0-\\1?yes:no" [some "X", some "v"] = "\\0-yes" ∧
    resolveVersionCoreSpec "\\0-\\1?yes:no" [some "X", some "v"] = "X-yes" ∧
    resolveVersionCore "\\0-\\1?yes:no" [some "X", some "v"] ≠
      resolveVersionCoreSpec "\\0-\\1?yes:no" [some "X", some "v"] := by
  refine ⟨by decide, by decide, by decide⟩

/-- C2 (amended): when the original template contains a ternary for index
`i`, processing index `i` is independent of the working string built so far
— the chosen branch replaces the ternary inside the *original template* and
the result becomes the new working string, so substitutions already
performed for lower group indices are discarded, not preserved. -/
theorem claim_C2_amended :
    ∀ (version : String) (i : Nat) (m : Option String)
      (rest : List (Nat × Option String)) (r1 r2 : String) (w tb fb : String),
      ternarySearch i version = some (w, tb, fb) →
      List.foldl (versionStep version) r1 ((i, m) :: rest) =
        List.foldl (versionStep version) r2 ((i, m) :: rest) := by
  intro version i m rest r1 r2 w tb fb h
  have hstep : ∀ r : String, versionStep version r (i, m) =
      pyReplace (pyStrip (pyReplace version w (if pyTruthy m then tb else fb)))
        ("\\" ++ toString i) (orEmpty m) := by
    intro r
    simp [versionStep, h]
  simp only [List.foldl_cons, hstep]

/-- Witness for `claim_C2_amended` at the counterexample's template: the
index-1 step maps the partially substituted working string and the pristine
template to the same result. -/
theorem claim_C2_amended_witness :
    List.foldl (versionStep "\\0-\\1?yes:no") "X-\\1?yes:no" [(1, some "v")] =
      List.foldl (versionStep "\\0-\\1?yes:no") "\\0-\\1?yes:no" [(1, some "v")] :=
  claim_C2_amended "\\0-\\1?yes:no" 1 (some "v") [] "X-\\1?yes:no" "\\0-\\1?yes:no"
    "\\1?yes:no" "yes" "no" (by decide)

/-! ## C8 -/

/-- `List.flatMap` congruence over members. -/
theorem flatMap_congr_mem {α β : Type} (l : List α) (f g : α → List β)
    (h : ∀ x ∈ l, f x = g x) : l.flatMap f = l.flatMap g := by
  induction l with
  | nil => rfl
  | cons x xs ih =>
    simp only [List.flatMap_cons]
    rw [h x (List.mem_cons_self x xs), ih (fun y hy => h y (List.mem_cons_of_mem x hy))]

/-- Evaluating patterns against the empty string yields nothing when no
pattern's regex matches the empty string. -/
theorem match_patterns_empty_value (ps : List Pattern) (t : Technology)
    (h : ∀ p ∈ ps, p.search "" = none) : match_patterns ps t "" = [] := by
  induction ps with
  | nil => rfl
  | cons p ps ih =>
    have h1 := h p (List.mem_cons_self p ps)
    simp only [match_patterns, List.flatMap_cons, h1, Option.isSome_none,
      Bool.false_eq_true, if_false, List.nil_append]
    exact ih (fun q hq => h q (List.mem_cons_of_mem p hq))

/-- Keyed matching against an empty supplied mapping yields nothing. -/
theorem match_pairs_nil (t : Technology) (f : PairField) : match_pairs t f [] = [] := by
  have hl : (if f = PairField.cookies then lowerDict [] else []) = [] := by
    cases f <;> rfl
  simp only [match_pairs, hl, List.lookup_nil, Option.getD_none, List.flatMap_nil]
  induction t.pairFieldGet f with
  | nil => rfl
  | cons kv rest ih => simp [ih]

/-- C8: counterexample to the claim as stated.  A technology whose url
pattern's regex matches the empty string (for instance a compiled empty
pattern, which real rule sets contain): with an empty url signal the
short-circuiting `match_all` reports no matches, while evaluating the field
(`match_all_noshort`) produces a hit, so the short-circuit changes results. -/
theorem claim_C8_counterexample :
    match_all [("u", demoTechUrl)] "" "" [] [] [] [] [] = [] ∧
    match_all_noshort [("u", demoTechUrl)] "" "" [] [] [] [] [] =
      [⟨demoTechUrl, demoPatternAll, ""⟩] ∧
    match_all [("u", demoTechUrl)] "" "" [] [] [] [] [] ≠
      match_all_noshort [("u", demoTechUrl)] "" "" [] [] [] [] [] := by
  refine ⟨rfl, rfl, fun h => ?_⟩
  have h2 : ([] : List PatternMatch) = [⟨demoTechUrl, demoPatternAll, ""⟩] := h
  exact List.noConfusion h2

/-- C8 (amended): the short-circuiting of absent/empty inputs in `match_all`
does not change results provided no url/html pattern regex matches the empty
string.  (Empty list- and mapping-valued fields are genuinely equivalent to
skipping; an empty url or html string is only equivalent under that
proviso, which the counterexample shows is necessary.) -/
theorem claim_C8_amended :
    ∀ (techs : List (String × Technology)),
      (∀ kv ∈ techs, ∀ p ∈ kv.2.url ++ kv.2.html, p.search "" = none) →
      ∀ (url html : String) (scripts : List String)
        (cookies metas headers js_vars : List (String × List String)),
        match_all techs url html scripts cookies metas headers js_vars =
          match_all_noshort techs url html scripts cookies metas headers js_vars := by
  intro techs h url html scripts cookies metas headers js_vars
  unfold match_all match_all_noshort
  apply flatMap_congr_mem
  intro t ht
  obtain ⟨kv, hkv, rfl⟩ := List.mem_map.mp ht
  have hu : ∀ p ∈ kv.2.url, p.search "" = none :=
    fun p hp => h kv hkv p (List.mem_append_left _ hp)
  have hh : ∀ p ∈ kv.2.html, p.search "" = none :=
    fun p hp => h kv hkv p (List.mem_append_right _ hp)
  have e1 : (if url ≠ "" then match_url kv.2 url else []) = match_url kv.2 url := by
    by_cases hc : url = ""
    · subst hc
      simp only [ne_eq, not_true_eq_false, if_false]
      exact (match_patterns_empty_value _ _ hu).symm
    · simp [hc]
  have e2 : (if headers ≠ [] then match_headers kv.2 headers else []) =
      match_headers kv.2 headers := by
    by_cases hc : headers = []
    · subst hc
      simp only [ne_eq, not_true_eq_false, if_false]
      exact (match_pairs_nil _ _).symm
    · simp [hc]
  have e3 : (if cookies ≠ [] then match_cookies kv.2 cookies else []) =
      match_cookies kv.2 cookies := by
    by_cases hc : cookies = []
    · subst hc
      simp only [ne_eq, not_true_eq_false, if_false]
      exact (match_pairs_nil _ _).symm
    · simp [hc]
  have e4 : (if html ≠ "" then match_html kv.2 html else []) = match_html kv.2 html := by
    by_cases hc : html = ""
    · subst hc
      simp only [ne_eq, not_true_eq_false, if_false]
      exact (match_patterns_empty_value _ _ hh).symm
    · simp [hc]
  have e5 : (if metas ≠ [] then match_metas kv.2 metas else []) =
      match_metas kv.2 metas := by
    by_cases hc : metas = []
    · subst hc
      simp only [ne_eq, not_true_eq_false, if_false]
      exact (match_pairs_nil _ _).symm
    · simp [hc]
  have e6 : (if scripts ≠ [] then match_scripts kv.2 scripts else []) =
      match_scripts kv.2 scripts := by
    by_cases hc : scripts = []
    · subst hc
      simp only [ne_eq, not_true_eq_false, if_false]
      rfl
    · simp [hc]
  have e7 : (if js_vars ≠ [] then match_js_vars kv.2 js_vars else []) =
      match_js_vars kv.2 js_vars := by
    by_cases hc : js_vars = []
    · subst hc
      simp only [ne_eq, not_true_eq_false, if_false]
      exact (match_pairs_nil _ _).symm
    · simp [hc]
  rw [e1, e2, e3, e4, e5, e6, e7]

/-- Witness for `claim_C8_amended`: a concrete rule set whose single url
pattern matches exactly the non-empty strings, matched with every signal
absent. -/
theorem claim_C8_amended_witness :
    match_all [("n", demoTechNonEmpty)] "" "" [] [] [] [] [] =
      match_all_noshort [("n", demoTechNonEmpty)] "" "" [] [] [] [] [] :=
  claim_C8_amended [("n", demoTechNonEmpty)]
    (by
      intro kv hkv p hp
      rw [List.mem_singleton] at hkv
      subst hkv
      simp only [demoTechNonEmpty, List.append_nil, List.mem_singleton] at hp
      subst hp
      rfl)
    "" "" [] [] [] [] []

/-! ## C9 -/

/-- C9: counterexample to the claim as stated.  A rule set declaring the
header key `Server` is loaded with the key lower-cased to `server`
(`_transform_patterns` with `case_sensitive=False`, which `load_apps` uses
for headers, cookies and meta alike); supplied headers are not transformed,
so the supplied key `Server` — identical, including case, to the rule-set
key — does not match, while the lower-cased `server` does.  This refutes
"a rule-set header or meta key matches a supplied key if and only if the
two strings are identical including case". -/
theorem claim_C9_counterexample :
    demoLoadedHeaders.map Prod.fst = ["server"] ∧
    match_pairs demoTechHdr PairField.headers [("Server", ["val"])] = [] ∧
    match_pairs demoTechHdr PairField.headers [("server", ["val"])] =
      [⟨demoTechHdr, demoParse "x" "Server", ""⟩] :=
  ⟨rfl, rfl, rfl⟩

/-- C9 (amended): (1) cookie matching is case-insensitive in the supplied
keys — `match_pairs` consults the supplied mapping only through its
lower-cased form; (2) rule-set keys of a keyed field loaded with
`case_sensitive=False` (headers, cookies, meta) are stored lower-cased; and
(3) header/meta matching consults the supplied mapping only by exact-case
lookup of those stored (lower-cased) keys. -/
theorem claim_C9_amended :
    (∀ (t : Technology) (pairs pairs' : List (String × List String)),
        lowerDict pairs = lowerDict pairs' →
        match_pairs t PairField.cookies pairs = match_pairs t PairField.cookies pairs') ∧
    (∀ (parsePattern : String → String → Pattern) (raw : List (String × List String)),
        (raw.map (fun kv => pyLower kv.1)).Nodup →
        (transform_patterns_keyed parsePattern false raw).map Prod.fst =
          raw.map (fun kv => pyLower kv.1)) ∧
    (∀ (t : Technology) (f : PairField) (pairs pairs' : List (String × List String)),
        f = PairField.headers ∨ f = PairField.meta →
        (∀ k ∈ (t.pairFieldGet f).map Prod.fst, List.lookup k pairs = List.lookup k pairs') →
        match_pairs t f pairs = match_pairs t f pairs') := by
  refine ⟨?_, ?_, ?_⟩
  · intro t pairs pairs' h
    simp [match_pairs, h]
  · intro parsePattern raw hnd
    have aux : ∀ (l : List (String × List String)) (acc : List (String × List Pattern)),
        (acc.map Prod.fst ++ l.map (fun kv => pyLower kv.1)).Nodup →
        (l.foldl (fun parsed kv =>
            pyDictInsert parsed (if false then kv.1 else pyLower kv.1)
              (kv.2.map (fun p => parsePattern p kv.1))) acc).map Prod.fst =
          acc.map Prod.fst ++ l.map (fun kv => pyLower kv.1) := by
      intro l
      induction l with
      | nil => intro acc _; simp
      | cons kv rest ih =>
        intro acc hn
        have hsplit := List.nodup_append.mp hn
        have hkey : pyLower kv.1 ∉ acc.map Prod.fst := by
          intro hmem
          exact hsplit.2.2 hmem (List.mem_cons_self _ _)
        have hany : acc.any (fun kv2 => kv2.1 == pyLower kv.1) = false := by
          rw [List.any_eq_false]
          intro kv2 h2 he
          rw [beq_iff_eq] at he
          exact hkey (he ▸ List.mem_map_of_mem Prod.fst h2)
        simp only [List.foldl_cons, List.map_cons]
        rw [show pyDictInsert acc (if false then kv.1 else pyLower kv.1)
              (kv.2.map (fun p => parsePattern p kv.1)) =
            acc ++ [(pyLower kv.1, kv.2.map (fun p => parsePattern p kv.1))] by
          simp [pyDictInsert, hany]]
        rw [ih (acc ++ [(pyLower kv.1, kv.2.map (fun p => parsePattern p kv.1))]) (by
          simp only [List.map_append, List.map_cons, List.map_nil, List.append_assoc,
            List.singleton_append]
          exact hn)]
        simp
    have := aux raw [] (by simpa using hnd)
    simpa [transform_patterns_keyed] using this
  · intro t f pairs pairs' hf h
    have hfc : (f = PairField.cookies) = False := by
      rcases hf with rfl | rfl <;> simp
    simp only [match_pairs, hfc, if_false]
    apply flatMap_congr_mem
    intro kv hkv
    rw [h kv.1 (List.mem_map_of_mem Prod.fst hkv)]

/-- Witness for `claim_C9_amended`: supplied cookie keys `A` and `a`
coincide after lower-casing and match identically; the loaded key list for
a rule-set header key `Server` is `["server"]`; and header matching against
`demoTechHdr` cannot distinguish supplied mappings that agree at the exact
key `server`. -/
theorem claim_C9_amended_witness :
    match_pairs demoTechHdr PairField.cookies [("A", ["1"])] =
      match_pairs demoTechHdr PairField.cookies [("a", ["1"])] ∧
    (transform_patterns_keyed demoParse false [("Server", ["x"])]).map Prod.fst =
      ["server"] ∧
    match_pairs demoTechHdr PairField.headers [("x", ["1"])] =
      match_pairs demoTechHdr PairField.headers [("y", ["2"])] :=
  ⟨claim_C9_amended.1 demoTechHdr [("A", ["1"])] [("a", ["1"])] rfl,
   claim_C9_amended.2.1 demoParse [("Server", ["x"])] (by decide),
   claim_C9_amended.2.2 demoTechHdr PairField.headers [("x", ["1"])] [("y", ["2"])]
     (Or.inl rfl) (by decide)⟩

/-! ## C3 -/

/-- `PatternMatch.__eq__` reduces to technology-name equality: the pattern
conjuncts compare `self` with itself. -/
theorem pyEq_iff_name (a b : PatternMatch) :
    PatternMatch.pyEq a b = (a.technology.name == b.technology.name) := by
  simp [PatternMatch.pyEq]

/-- `PatternMatch.__eq__` against a `TechMatch` likewise reduces to
technology-name equality. -/
theorem patternMatchEqTech_iff_name (a : PatternMatch) (b : TechMatch) :
    patternMatchEqTech a b = (a.technology.name == b.technology.name) := by
  simp [patternMatchEqTech]

/-- The paired confidence/version fold of `extractInner` splits into a
confidence fold and a version fold over the hits of `pm`'s technology. -/
theorem extractInner_split (pms : List PatternMatch) (pm : PatternMatch) :
    ∀ (a : Int) (v : String),
      pms.foldl (fun cv pt =>
        if PatternMatch.pyEq pt pm then
          (min 100 (cv.1 + pt.pattern.confidence),
           if cv.2.length < pt.version.length && pt.version.length ≤ 10 then pt.version
           else cv.2)
        else cv) (a, v) =
      (((hitsFor pms pm.technology.name).map (fun q => q.pattern.confidence)).foldl
          (fun x c => min 100 (x + c)) a,
       ((hitsFor pms pm.technology.name).map (fun q => q.version)).foldl
          (fun x pv => if x.length < pv.length && pv.length ≤ 10 then pv else x) v) := by
  induction pms with
  | nil => intro a v; rfl
  | cons pt rest ih =>
    intro a v
    by_cases h : pt.technology.name = pm.technology.name
    · have hb : PatternMatch.pyEq pt pm = true := by
        rw [pyEq_iff_name]; exact beq_iff_eq.mpr h
      have hf : (hitsFor (pt :: rest) pm.technology.name) =
          pt :: hitsFor rest pm.technology.name := by
        simp [hitsFor, List.filter_cons, h]
      simp only [List.foldl_cons, hb, if_true, hf, List.map_cons]
      exact ih _ _
    · have hb : PatternMatch.pyEq pt pm = false := by
        rw [pyEq_iff_name]; exact beq_eq_false_iff_ne.mpr h
      have hf : (hitsFor (pt :: rest) pm.technology.name) =
          hitsFor rest pm.technology.name := by
        simp [hitsFor, List.filter_cons, h]
      simp only [List.foldl_cons, hb, Bool.false_eq_true, if_false, hf]
      exact ih _ _

/-- A running clamped sum of non-negative integers equals the clamped total. -/
theorem foldl_min_clamp : ∀ (cs : List Int) (a : Int), 0 ≤ a → a ≤ 100 →
    (∀ c ∈ cs, 0 ≤ c) →
    cs.foldl (fun x c => min 100 (x + c)) a = min 100 (a + cs.sum) := by
  intro cs
  induction cs with
  | nil => intro a h0 h100 _; simp; omega
  | cons c rest ih =>
    intro a h0 h100 hc
    have hc0 : 0 ≤ c := hc c (List.mem_cons_self _ _)
    have hrest : ∀ x ∈ rest, 0 ≤ x := fun x hx => hc x (List.mem_cons_of_mem _ hx)
    have hsum : 0 ≤ rest.sum := List.sum_nonneg hrest
    simp only [List.foldl_cons, List.sum_cons]
    rw [ih (min 100 (a + c)) (by omega) (by omega) hrest]
    omega

/-- Invariants of the accumulating fold of `extract_techno_matches`, for any
element-builder `mk` that preserves the technology name: accumulated
technology names stay duplicate-free, every output entry is an input entry
or built from some processed pattern match, and the output's names are
exactly the accumulated names plus the processed matches' names. -/
theorem extract_fold_inv (mk : PatternMatch → TechMatch)
    (hmk : ∀ pm, (mk pm).technology.name = pm.technology.name) :
    ∀ (l : List PatternMatch) (acc : List TechMatch),
      ((acc.map (fun tm => tm.technology.name)).Nodup) →
      (((l.foldl (fun acc pm =>
            if acc.any (fun tm => patternMatchEqTech pm tm) then acc
            else acc ++ [mk pm]) acc).map (fun tm => tm.technology.name)).Nodup ∧
       (∀ tm ∈ l.foldl (fun acc pm =>
            if acc.any (fun tm => patternMatchEqTech pm tm) then acc
            else acc ++ [mk pm]) acc, tm ∈ acc ∨ ∃ pm ∈ l, tm = mk pm) ∧
       (∀ t, t ∈ (l.foldl (fun acc pm =>
            if acc.any (fun tm => patternMatchEqTech pm tm) then acc
            else acc ++ [mk pm]) acc).map (fun tm => tm.technology.name) ↔
          t ∈ acc.map (fun tm => tm.technology.name) ∨
            t ∈ l.map (fun pm => pm.technology.name))) := by
  intro l
  induction l with
  | nil =>
    intro acc h
    refine ⟨h, fun tm htm => Or.inl htm, fun t => by simp⟩
  | cons pm rest ih =>
    intro acc h
    by_cases hmem : acc.any (fun tm => patternMatchEqTech pm tm) = true
    · have hname : pm.technology.name ∈ acc.map (fun tm => tm.technology.name) := by
        obtain ⟨tm, htm, hp⟩ := List.any_eq_true.mp hmem
        rw [patternMatchEqTech_iff_name, beq_iff_eq] at hp
        exact hp ▸ List.mem_map_of_mem _ htm
      simp only [List.foldl_cons, hmem, if_true]
      obtain ⟨h1, h2, h3⟩ := ih acc h
      refine ⟨h1, fun tm htm => ?_, fun t => ?_⟩
      · rcases h2 tm htm with ha | ⟨pm', hpm', he⟩
        · exact Or.inl ha
        · exact Or.inr ⟨pm', List.mem_cons_of_mem _ hpm', he⟩
      · rw [h3 t]
        simp only [List.map_cons, List.mem_cons]
        constructor
        · rintro (ha | hr)
          · exact Or.inl ha
          · exact Or.inr (Or.inr hr)
        · rintro (ha | he | hr)
          · exact Or.inl ha
          · exact Or.inl (he ▸ hname)
          · exact Or.inr hr
    · have hmem' : acc.any (fun tm => patternMatchEqTech pm tm) = false :=
        Bool.eq_false_iff.mpr hmem
      have hnotin : pm.technology.name ∉ acc.map (fun tm => tm.technology.name) := by
        intro hin
        obtain ⟨tm, htm, he⟩ := List.mem_map.mp hin
        have : patternMatchEqTech pm tm = true := by
          rw [patternMatchEqTech_iff_name]; exact beq_iff_eq.mpr he.symm
        exact hmem (List.any_eq_true.mpr ⟨tm, htm, this⟩)
      have hnodup' : ((acc ++ [mk pm]).map (fun tm => tm.technology.name)).Nodup := by
        simp only [List.map_append, List.map_cons, List.map_nil]
        rw [List.nodup_append]
        refine ⟨h, List.nodup_singleton _, ?_⟩
        intro x hx hx'
        simp only [List.mem_singleton] at hx'
        subst hx'
        rw [hmk] at hx
        exact hnotin hx
      simp only [List.foldl_cons, hmem', Bool.false_eq_true, if_false]
      obtain ⟨h1, h2, h3⟩ := ih (acc ++ [mk pm]) hnodup'
      refine ⟨h1, fun tm htm => ?_, fun t => ?_⟩
      · rcases h2 tm htm with ha | ⟨pm', hpm', he⟩
        · rcases List.mem_append.mp ha with ha' | hb'
          · exact Or.inl ha'
          · rw [List.mem_singleton] at hb'
            exact Or.inr ⟨pm, List.mem_cons_self _ _, hb'⟩
        · exact Or.inr ⟨pm', List.mem_cons_of_mem _ hpm', he⟩
      · rw [h3 t]
        simp only [List.map_append, List.map_cons, List.map_nil, List.mem_append,
          List.mem_cons, List.not_mem_nil, or_false, hmk]
        tauto

/-- C3: confirmed (for non-negative declared confidences, which the data
model guarantees: §3 declares confidence an integer 0-100).  For every
technology occurring in the input, `extract_techno_matches` emits exactly
one `TechMatch` for it; its confidence is the clamped sum of the declared
confidences of that technology's hits — the running per-step clamp
`min(100, ·)` of the source equals the clamped total — and its version is
the longest version of length at most 10 among those hits, a candidate
replacing the running choice only when strictly longer (`bestVersion`). -/
theorem claim_C3 :
    ∀ (pms : List PatternMatch),
      (∀ pm ∈ pms, 0 ≤ pm.pattern.confidence) →
      ∀ t ∈ pms.map (fun pm => pm.technology.name),
        ((extract_techno_matches pms).map (fun tm => tm.technology.name)).count t = 1 ∧
        ∀ tm ∈ extract_techno_matches pms, tm.technology.name = t →
          tm.confidence =
            min 100 (((hitsFor pms t).map (fun q => q.pattern.confidence)).sum) ∧
          tm.version = bestVersion ((hitsFor pms t).map (fun q => q.version)) := by
  intro pms hconf t ht
  have hrepr : extract_techno_matches pms =
      pms.foldl (fun acc pm =>
        if acc.any (fun tm => patternMatchEqTech pm tm) then acc
        else acc ++ [(⟨pm.technology, (extractInner pms pm).1, (extractInner pms pm).2⟩ :
          TechMatch)]) [] := rfl
  have hmk : ∀ pm : PatternMatch,
      ((⟨pm.technology, (extractInner pms pm).1, (extractInner pms pm).2⟩ :
        TechMatch)).technology.name = pm.technology.name := fun _ => rfl
  obtain ⟨h1, h2, h3⟩ := extract_fold_inv _ hmk pms [] (by simp)
  rw [hrepr]
  constructor
  · apply List.count_eq_one_of_mem h1
    rw [h3 t]
    exact Or.inr ht
  · intro tm htm hname
    rcases h2 tm htm with hin | ⟨pm, hpm, rfl⟩
    · simp at hin
    · have hpmname : pm.technology.name = t := hname
      have hspec := extractInner_split pms pm 0 ""
      have hval : extractInner pms pm =
          (((hitsFor pms pm.technology.name).map (fun q => q.pattern.confidence)).foldl
              (fun x c => min 100 (x + c)) 0,
           bestVersion ((hitsFor pms pm.technology.name).map (fun q => q.version))) := by
        unfold extractInner bestVersion
        exact hspec
      have hconf' : ∀ c ∈ (hitsFor pms pm.technology.name).map
          (fun q => q.pattern.confidence), 0 ≤ c := by
        intro c hc
        obtain ⟨q, hq, rfl⟩ := List.mem_map.mp hc
        exact hconf q (List.mem_of_mem_filter hq)
      constructor
      · show (extractInner pms pm).1 = _
        rw [hval]
        simp only []
        rw [foldl_min_clamp _ 0 le_rfl (by norm_num) hconf', hpmname]
        rw [Int.zero_add]
      · show (extractInner pms pm).2 = _
        rw [hval, hpmname]

/-- Witness for `claim_C3`: two distinct hits of the same technology `a`,
both with declared confidence 100. -/
theorem claim_C3_witness :
    ((extract_techno_matches [demoPM1, demoPM2]).map
        (fun tm => tm.technology.name)).count "a" = 1 ∧
    ∀ tm ∈ extract_techno_matches [demoPM1, demoPM2], tm.technology.name = "a" →
      tm.confidence =
        min 100 (((hitsFor [demoPM1, demoPM2] "a").map
          (fun q => q.pattern.confidence)).sum) ∧
      tm.version = bestVersion ((hitsFor [demoPM1, demoPM2] "a").map
        (fun q => q.version)) :=
  claim_C3 [demoPM1, demoPM2] (by decide) "a" (by decide)

/-! ## C4 -/

/-- Every match `resolve_excludes` outputs comes from its input. -/
theorem resolve_excludes_subset_aux :
    ∀ (n : Nat) (l : List TechMatch), l.length ≤ n → ∀ x ∈ resolve_excludes l, x ∈ l := by
  intro n
  induction n with
  | zero =>
    intro l hl x hx
    have : l = [] := List.length_eq_zero.mp (Nat.le_zero.mp hl)
    subst this
    simp only [resolve_excludes] at hx
    exact absurd hx (List.not_mem_nil x)
  | succ n ih =>
    intro l hl x hx
    match l with
    | [] =>
      simp only [resolve_excludes] at hx
      exact absurd hx (List.not_mem_nil x)
    | tm :: rest =>
      simp only [resolve_excludes] at hx
      rcases List.mem_cons.mp hx with rfl | hx'
      · exact List.mem_cons_self _ _
      · have hlen : (rest.filter (fun x =>
            !((tm.technology.excludes.map (fun ex => ex.name)).contains
              x.technology.name))).length ≤ n := by
          have := List.length_filter_le (fun x =>
            !((tm.technology.excludes.map (fun ex => ex.name)).contains
              x.technology.name)) rest
          simp only [List.length_cons] at hl
          omega
        have := ih _ hlen x hx'
        exact List.mem_cons_of_mem _ (List.mem_of_mem_filter this)

/-- Every match `resolve_excludes` outputs comes from its input. -/
theorem resolve_excludes_subset (l : List TechMatch) :
    ∀ x ∈ resolve_excludes l, x ∈ l :=
  resolve_excludes_subset_aux l.length l le_rfl

/-- The keep/drop invariant of `resolve_excludes`: if no match before `a`
excludes `a`'s technology and none of them carries the name `bname`, where
`a` excludes `bname` and is itself not named `bname`, then `a` survives and
no surviving match is named `bname`. -/
theorem resolve_excludes_keep :
    ∀ (n : Nat) (p1 : List TechMatch) (a : TechMatch) (p2 : List TechMatch) (bname : String),
      (p1 ++ a :: p2).length ≤ n →
      (∀ c ∈ p1, a.technology.name ∉ c.technology.excludes.map (fun ex => ex.name)) →
      (∀ c ∈ p1, c.technology.name ≠ bname) →
      a.technology.name ≠ bname →
      bname ∈ a.technology.excludes.map (fun ex => ex.name) →
      a ∈ resolve_excludes (p1 ++ a :: p2) ∧
        ∀ x ∈ resolve_excludes (p1 ++ a :: p2), x.technology.name ≠ bname := by
  intro n
  induction n with
  | zero =>
    intro p1 a p2 bname hl
    exfalso
    simp [List.length_append] at hl
  | succ n ih =>
    intro p1 a p2 bname hl h1 h2 h3 h4
    match p1 with
    | [] =>
      simp only [List.nil_append] at hl ⊢
      simp only [resolve_excludes]
      refine ⟨List.mem_cons_self _ _, ?_⟩
      intro x hx
      rcases List.mem_cons.mp hx with rfl | hx'
      · exact h3
      · have hxf := resolve_excludes_subset _ x hx'
        have hp := (List.mem_filter.mp hxf).2
        intro he
        have : x.technology.name ∈ a.technology.excludes.map (fun ex => ex.name) :=
          he ▸ h4
        simp only [Bool.not_eq_true'] at hp
        have : (a.technology.excludes.map (fun ex => ex.name)).contains
            x.technology.name = true := by
          simpa using this
        rw [hp] at this
        exact Bool.noConfusion this
    | c :: p1' =>
      have hca : a.technology.name ∉ c.technology.excludes.map (fun ex => ex.name) :=
        h1 c (List.mem_cons_self _ _)
      have hfa : (fun x => !((c.technology.excludes.map (fun ex => ex.name)).contains
          x.technology.name)) a = true := by
        simpa using hca
      simp only [List.cons_append, resolve_excludes]
      rw [List.filter_append, List.filter_cons, if_pos hfa]
      have hlen : ((p1'.filter (fun x =>
            !((c.technology.excludes.map (fun ex => ex.name)).contains
              x.technology.name))) ++ a :: (p2.filter (fun x =>
            !((c.technology.excludes.map (fun ex => ex.name)).contains
              x.technology.name)))).length ≤ n := by
        have hf1 := List.length_filter_le (fun x =>
          !((c.technology.excludes.map (fun ex => ex.name)).contains
            x.technology.name)) p1'
        have hf2 := List.length_filter_le (fun x =>
          !((c.technology.excludes.map (fun ex => ex.name)).contains
            x.technology.name)) p2
        simp only [List.length_append, List.length_cons] at hl ⊢
        omega
      obtain ⟨ha, hb⟩ := ih _ a _ bname hlen
        (fun c' hc' => h1 c' (List.mem_cons_of_mem _ (List.mem_of_mem_filter hc')))
        (fun c' hc' => h2 c' (List.mem_cons_of_mem _ (List.mem_of_mem_filter hc')))
        h3 h4
      refine ⟨List.mem_cons_of_mem _ ha, ?_⟩
      intro x hx
      rcases List.mem_cons.mp hx with rfl | hx'
      · exact h2 x (List.mem_cons_self _ _)
      · exact hb x hx'

/-- C4: counterexample to the claim as stated.  In the input
`[C, A, B]` where `C` excludes `A` and `A`, `B` mutually exclude each other,
`A` precedes `B`, yet the output is `[C, B]`: it does not contain `A` and
does contain `B`, because the earlier-kept `C` eliminated `A` before `A`
could eliminate `B`. -/
theorem claim_C4_counterexample :
    exclTmB.technology.name ∈ exclTmA.technology.excludes.map (fun ex => ex.name) ∧
    exclTmA.technology.name ∈ exclTmB.technology.excludes.map (fun ex => ex.name) ∧
    resolve_excludes [exclTmC, exclTmA, exclTmB] = [exclTmC, exclTmB] ∧
    (∀ x ∈ resolve_excludes [exclTmC, exclTmA, exclTmB],
      x.technology.name ≠ exclTmA.technology.name) ∧
    exclTmB ∈ resolve_excludes [exclTmC, exclTmA, exclTmB] := by
  have h3 : resolve_excludes [exclTmC, exclTmA, exclTmB] = [exclTmC, exclTmB] := by
    simp [resolve_excludes, exclTmC, exclTmA, exclTmB, exclTechC, exclTechA, exclTechB,
      List.filter]
  refine ⟨by decide, by decide, h3, ?_, ?_⟩
  · intro x hx
    rw [h3] at hx
    rcases List.mem_cons.mp hx with rfl | hx'
    · decide
    · rcases List.mem_cons.mp hx' with rfl | hx''
      · decide
      · exact absurd hx'' (List.not_mem_nil x)
  · rw [h3]
    exact List.mem_cons_of_mem _ (List.mem_cons_self _ _)

/-- C4 (amended): `resolve_excludes` keeps the first remaining match and
drops every later match whose technology name the kept match excludes; for
mutually excluding `A` and `B` with `A` earlier in the input, the output
contains `A` and no match named like `B`, provided additionally that no
match before `A` excludes `A`'s technology or carries `B`'s name (the
counterexample shows this proviso is necessary) and `A` and `B` have
distinct names. -/
theorem claim_C4_amended :
    ∀ (l1 l2 l3 : List TechMatch) (a b : TechMatch),
      b.technology.name ∈ a.technology.excludes.map (fun ex => ex.name) →
      a.technology.name ∈ b.technology.excludes.map (fun ex => ex.name) →
      a.technology.name ≠ b.technology.name →
      (∀ c ∈ l1, a.technology.name ∉ c.technology.excludes.map (fun ex => ex.name)) →
      (∀ c ∈ l1, c.technology.name ≠ b.technology.name) →
      a ∈ resolve_excludes (l1 ++ a :: (l2 ++ b :: l3)) ∧
        ∀ x ∈ resolve_excludes (l1 ++ a :: (l2 ++ b :: l3)),
          x.technology.name ≠ b.technology.name := by
  intro l1 l2 l3 a b hab hba hne h1 h2
  exact resolve_excludes_keep (l1 ++ a :: (l2 ++ b :: l3)).length l1 a (l2 ++ b :: l3)
    b.technology.name le_rfl h1 h2 hne hab

/-- Witness for `claim_C4_amended`: the two-element input `[A, B]` with the
mutual exclusion of the counterexample — `A` survives, `B` is eliminated. -/
theorem claim_C4_amended_witness :
    exclTmA ∈ resolve_excludes ([] ++ exclTmA :: ([] ++ exclTmB :: [])) ∧
    ∀ x ∈ resolve_excludes ([] ++ exclTmA :: ([] ++ exclTmB :: [])),
      x.technology.name ≠ exclTmB.technology.name :=
  claim_C4_amended [] [] [] exclTmA exclTmB (by decide) (by decide) (by decide)
    (fun c hc => absurd hc (List.not_mem_nil c))
    (fun c hc => absurd hc (List.not_mem_nil c))

/-! ## C5, C6, C7: the implication resolver -/

/-- `Except` bind on a success. -/
theorem exceptBindOk {ε α β : Type} (a : α) (f : α → Except ε β) :
    ((Except.ok a : Except ε α) >>= f) = f a := rfl

/-- `Except` bind on an error. -/
theorem exceptBindErr {ε α β : Type} (e : ε) (f : α → Except ε β) :
    ((Except.error e : Except ε α) >>= f) = Except.error e := rfl

/-- `deriveImply` on a missing name is the `KeyError`. -/
theorem deriveImply_none (techs : List (String × Technology)) (tm : TechMatch)
    (imp : Imply) (h : List.lookup imp.name techs = none) :
    deriveImply techs tm imp = Except.error (PyError.keyError imp.name) := by
  simp [deriveImply, h]

/-- `deriveImply` on a present name is the derived match. -/
theorem deriveImply_some (techs : List (String × Technology)) (tm : TechMatch)
    (imp : Imply) (t : Technology) (h : List.lookup imp.name techs = some t) :
    deriveImply techs tm imp = Except.ok
      { technology := t, confidence := min imp.confidence tm.confidence,
        version := "" } := by
  simp [deriveImply, h]

/-- A successful rule-set lookup returns a technology whose name is among the
rule set's value names. -/
theorem lookup_mem_vNames :
    ∀ (l : List (String × Technology)) (k : String) (t : Technology),
      List.lookup k l = some t → t.name ∈ vNames l := by
  intro l
  induction l with
  | nil => intro k t h; simp [List.lookup] at h
  | cons kv rest ih =>
    intro k t h
    cases he : k == kv.1 with
    | true =>
      simp only [List.lookup, he] at h
      cases h
      simp [vNames]
    | false =>
      simp only [List.lookup, he] at h
      have := ih k t h
      simp only [vNames, List.map_cons, List.toFinset_cons, Finset.mem_insert]
      exact Or.inr (by simpa [vNames] using this)

/-- `buildImplies` can only fail with a `KeyError`. -/
theorem buildImplies_error_key :
    ∀ (techs : List (String × Technology)) (tm : TechMatch) (e : PyError),
      buildImplies techs tm = Except.error e → ∃ k, e = PyError.keyError k := by
  intro techs tm
  unfold buildImplies
  generalize tm.technology.implies = l
  induction l with
  | nil =>
    intro e h
    rw [List.mapM_nil] at h
    exact Except.noConfusion h
  | cons imp rest ih =>
    intro e h
    rw [List.mapM_cons] at h
    cases hl : List.lookup imp.name techs with
    | none =>
      rw [deriveImply_none techs tm imp hl] at h
      rw [exceptBindErr] at h
      cases h
      exact ⟨imp.name, rfl⟩
    | some t =>
      rw [deriveImply_some techs tm imp t hl] at h
      rw [exceptBindOk] at h
      cases hrest : rest.mapM (deriveImply techs tm) with
      | error e' =>
        rw [hrest, exceptBindErr] at h
        cases h
        exact ih _ hrest
      | ok l' =>
        rw [hrest, exceptBindOk] at h
        exact Except.noConfusion h

/-- Every technology match `buildImplies` derives has an empty version, a
technology stored in the rule set, and the clamped confidence
`min(imply.confidence, parent.confidence)` for one of the parent's `Imply`
entries. -/
theorem buildImplies_ok_spec :
    ∀ (techs : List (String × Technology)) (tm : TechMatch) (derived : List TechMatch),
      buildImplies techs tm = Except.ok derived →
      ∀ d ∈ derived, d.version = "" ∧ d.technology.name ∈ vNames techs ∧
        ∃ imp ∈ tm.technology.implies,
          List.lookup imp.name techs = some d.technology ∧
          d.confidence = min imp.confidence tm.confidence := by
  intro techs tm
  unfold buildImplies
  have aux : ∀ (l : List Imply) (derived : List TechMatch),
      l.mapM (deriveImply techs tm) = Except.ok derived →
      ∀ d ∈ derived, d.version = "" ∧ d.technology.name ∈ vNames techs ∧
        ∃ imp ∈ l, List.lookup imp.name techs = some d.technology ∧
          d.confidence = min imp.confidence tm.confidence := by
    intro l
    induction l with
    | nil =>
      intro derived h d hd
      rw [List.mapM_nil] at h
      cases h
      exact absurd hd (List.not_mem_nil d)
    | cons imp rest ih =>
      intro derived h d hd
      rw [List.mapM_cons] at h
      cases hl : List.lookup imp.name techs with
      | none =>
        rw [deriveImply_none techs tm imp hl, exceptBindErr] at h
        exact absurd h (by simp)
      | some t =>
        rw [deriveImply_some techs tm imp t hl, exceptBindOk] at h
        cases hrest : rest.mapM (deriveImply techs tm) with
        | error e' =>
          rw [hrest, exceptBindErr] at h
          exact absurd h (by simp)
        | ok l' =>
          rw [hrest, exceptBindOk] at h
          cases h
          rcases List.mem_cons.mp hd with rfl | hdl
          · exact ⟨rfl, lookup_mem_vNames techs imp.name t hl,
              imp, List.mem_cons_self _ _, hl, rfl⟩
          · obtain ⟨hv, hn, imp', himp', hlk, hconf⟩ := ih l' hrest d hdl
            exact ⟨hv, hn, imp', List.mem_cons_of_mem _ himp', hlk, hconf⟩
  exact aux tm.technology.implies

/-- If the accumulator's membership test fails, the candidate's technology
name is not among the accumulated names. -/
theorem name_not_mem_of_not_any (acc : List TechMatch) (tm : TechMatch)
    (h : ¬(acc.any (fun x => TechMatch.pyEq x tm) = true)) :
    tm.technology.name ∉ acc.map (fun x => x.technology.name) := by
  intro hin
  obtain ⟨x, hx, he⟩ := List.mem_map.mp hin
  exact h (List.any_eq_true.mpr ⟨x, hx, by
    rw [TechMatch.pyEq]; exact beq_iff_eq.mpr he⟩)

/-- Accumulator monotonicity of `_resolve_implies_inner`: the Python code
only ever appends to `techno_impls`, so a successful call returns an
extension of its input accumulator. -/
theorem resolve_implies_inner_extends :
    ∀ (techs : List (String × Technology)) (fuel : Nat) (acc : List TechMatch)
      (tm : TechMatch) (res : List TechMatch),
      resolve_implies_inner techs fuel acc tm = Except.ok res → acc <+: res := by
  intro techs fuel
  induction fuel with
  | zero =>
    intro acc tm res h
    exact absurd h (by simp [resolve_implies_inner])
  | succ fuel ih =>
    intro acc tm res h
    by_cases hmem : acc.any (fun x => TechMatch.pyEq x tm) = true
    · simp only [resolve_implies_inner, hmem, if_true] at h
      cases h
      exact List.prefix_rfl
    · simp only [resolve_implies_inner, hmem, if_false] at h
      cases hbi : buildImplies techs tm with
      | error e => rw [hbi] at h; exact absurd h (by simp)
      | ok derived =>
        rw [hbi] at h
        have hfold : ∀ (l : List TechMatch) (a res : List TechMatch),
            l.foldlM (fun x d => resolve_implies_inner techs fuel x d) a =
              Except.ok res → a <+: res := by
          intro l
          induction l with
          | nil =>
            intro a res h
            rw [List.foldlM_nil] at h
            cases h
            exact List.prefix_rfl
          | cons d rest ihl =>
            intro a res h
            rw [List.foldlM_cons] at h
            cases hc : resolve_implies_inner techs fuel a d with
            | error e => rw [hc, exceptBindErr] at h; exact absurd h (by simp)
            | ok a' =>
              rw [hc, exceptBindOk] at h
              exact (ih a d a' hc).trans (ihl a' res h)
        exact (List.prefix_append acc [tm]).trans (hfold derived (acc ++ [tm]) res h)

/-- Accumulator monotonicity of the fold over a parent's derived matches. -/
theorem resolve_implies_fold_extends :
    ∀ (techs : List (String × Technology)) (fuel : Nat) (l : List TechMatch)
      (a res : List TechMatch),
      l.foldlM (fun x d => resolve_implies_inner techs fuel x d) a = Except.ok res →
      a <+: res := by
  intro techs fuel l
  induction l with
  | nil =>
    intro a res h
    rw [List.foldlM_nil] at h
    cases h
    exact List.prefix_rfl
  | cons d rest ihl =>
    intro a res h
    rw [List.foldlM_cons] at h
    cases hc : resolve_implies_inner techs fuel a d with
    | error e => rw [hc, exceptBindErr] at h; exact absurd h (by simp)
    | ok a' =>
      rw [hc, exceptBindOk] at h
      exact (resolve_implies_inner_extends techs fuel a d a' hc).trans (ihl a' res h)

/-- Accumulated name sets grow along accumulator extensions. -/
theorem namesOf_mono (a b : List TechMatch) (h : a <+: b) :
    namesOf a ⊆ namesOf b := by
  intro x hx
  simp only [namesOf, List.mem_toFinset, List.mem_map] at hx ⊢
  obtain ⟨tm, htm, rfl⟩ := hx
  exact ⟨tm, h.subset htm, rfl⟩

/-- Appending one match adds its name to the accumulated name set. -/
theorem namesOf_append_singleton (acc : List TechMatch) (tm : TechMatch) :
    namesOf (acc ++ [tm]) = namesOf acc ∪ {tm.technology.name} := by
  simp [namesOf]

/-- Appending a rule-set technology not yet accumulated strictly shrinks the
set of rule-set names still missing. -/
theorem card_sdiff_append_lt (techs : List (String × Technology))
    (acc : List TechMatch) (tm : TechMatch)
    (hv : tm.technology.name ∈ vNames techs)
    (hn : tm.technology.name ∉ namesOf acc) :
    (vNames techs \ namesOf (acc ++ [tm])).card < (vNames techs \ namesOf acc).card := by
  apply Finset.card_lt_card
  rw [Finset.ssubset_iff_of_subset (Finset.sdiff_subset_sdiff (le_refl _)
    (namesOf_mono _ _ (List.prefix_append _ _)))]
  refine ⟨tm.technology.name, Finset.mem_sdiff.mpr ⟨hv, hn⟩, ?_⟩
  simp [Finset.mem_sdiff, namesOf_append_singleton]

/-- Appending never grows the set of rule-set names still missing. -/
theorem card_sdiff_append_le (techs : List (String × Technology))
    (acc : List TechMatch) (tm : TechMatch) :
    (vNames techs \ namesOf (acc ++ [tm])).card ≤ (vNames techs \ namesOf acc).card :=
  Finset.card_le_card (Finset.sdiff_subset_sdiff (le_refl _)
    (namesOf_mono _ _ (List.prefix_append _ _)))

/-- Fuel-sufficiency of `resolve_implies_inner`: a call whose fuel covers
the number of rule-set names still missing from the accumulator (plus the
call's own cost) never exhausts its fuel — the model of the Python
recursion's termination on arbitrary, including cyclic, rule sets. -/
theorem resolve_implies_inner_ne_exhaust :
    ∀ (techs : List (String × Technology)) (fuel : Nat) (acc : List TechMatch)
      (tm : TechMatch),
      (vNames techs \ namesOf acc).card + innerCost techs tm ≤ fuel →
      resolve_implies_inner techs fuel acc tm ≠ Except.error PyError.fuelExhausted := by
  intro techs fuel
  induction fuel with
  | zero =>
    intro acc tm hle
    exfalso
    have h1 : 1 ≤ innerCost techs tm := by unfold innerCost; split <;> omega
    omega
  | succ fuel ih =>
    intro acc tm hle h
    by_cases hmem : acc.any (fun x => TechMatch.pyEq x tm) = true
    · simp only [resolve_implies_inner, hmem, if_true] at h
      exact Except.noConfusion h
    · simp only [resolve_implies_inner, hmem, if_false] at h
      cases hbi : buildImplies techs tm with
      | error e =>
        rw [hbi] at h
        obtain ⟨k, rfl⟩ := buildImplies_error_key techs tm e hbi
        exact PyError.noConfusion (Except.error.inj h)
      | ok derived =>
        rw [hbi] at h
        have hnmF : tm.technology.name ∉ namesOf acc := by
          have := name_not_mem_of_not_any acc tm hmem
          simpa [namesOf, List.mem_toFinset] using this
        have hder := buildImplies_ok_spec techs tm derived hbi
        have hbound : (vNames techs \ namesOf (acc ++ [tm])).card + 1 ≤ fuel := by
          by_cases hv : tm.technology.name ∈ vNames techs
          · have hlt := card_sdiff_append_lt techs acc tm hv hnmF
            have hco : innerCost techs tm = 1 := by unfold innerCost; rw [if_pos hv]
            omega
          · have hle2 := card_sdiff_append_le techs acc tm
            have hco : innerCost techs tm = 2 := by unfold innerCost; rw [if_neg hv]
            omega
        have hfold : ∀ (l : List TechMatch) (a : List TechMatch),
            (∀ d ∈ l, d.technology.name ∈ vNames techs) →
            (vNames techs \ namesOf a).card + 1 ≤ fuel →
            l.foldlM (fun x d => resolve_implies_inner techs fuel x d) a ≠
              Except.error PyError.fuelExhausted := by
          intro l
          induction l with
          | nil =>
            intro a _ _ hcontra
            rw [List.foldlM_nil] at hcontra
            exact Except.noConfusion hcontra
          | cons d rest ihl =>
            intro a hdv hb hcontra
            rw [List.foldlM_cons] at hcontra
            cases hc : resolve_implies_inner techs fuel a d with
            | error e =>
              rw [hc, exceptBindErr] at hcontra
              cases hcontra
              refine ih a d ?_ hc
              have hco : innerCost techs d = 1 := by
                unfold innerCost
                rw [if_pos (hdv d (List.mem_cons_self _ _))]
              omega
            | ok a' =>
              rw [hc, exceptBindOk] at hcontra
              have hpre := resolve_implies_inner_extends techs fuel a d a' hc
              have hcard : (vNames techs \ namesOf a').card ≤
                  (vNames techs \ namesOf a).card :=
                Finset.card_le_card (Finset.sdiff_subset_sdiff (le_refl _)
                  (namesOf_mono _ _ hpre))
              exact ihl a' (fun d' hd' => hdv d' (List.mem_cons_of_mem _ hd'))
                (by omega) hcontra
        exact hfold derived (acc ++ [tm]) (fun d hd => (hder d hd).2.1) hbound h

/-- `resolve_implies` never exhausts the fuel budget `impliesFuel`: the
Python recursion terminates on every rule set, cyclic ones included. -/
theorem resolve_implies_ne_exhaust :
    ∀ (tms : List TechMatch) (techs : List (String × Technology)),
      resolve_implies tms techs ≠ Except.error PyError.fuelExhausted := by
  intro tms techs
  unfold resolve_implies
  have aux : ∀ (l : List TechMatch) (a : List TechMatch),
      l.foldlM (fun acc tm =>
        resolve_implies_inner techs (impliesFuel techs) acc tm) a ≠
        Except.error PyError.fuelExhausted := by
    intro l
    induction l with
    | nil =>
      intro a h
      rw [List.foldlM_nil] at h
      exact Except.noConfusion h
    | cons tm rest ihl =>
      intro a h
      rw [List.foldlM_cons] at h
      cases hc : resolve_implies_inner techs (impliesFuel techs) a tm with
      | error e =>
        rw [hc, exceptBindErr] at h
        cases h
        refine resolve_implies_inner_ne_exhaust techs (impliesFuel techs) a tm ?_ hc
        have hcard : (vNames techs \ namesOf a).card ≤ techs.length := by
          calc (vNames techs \ namesOf a).card ≤ (vNames techs).card :=
              Finset.card_le_card Finset.sdiff_subset
            _ ≤ (techs.map (fun kv => kv.2.name)).length := List.toFinset_card_le _
            _ = techs.length := by simp
        have hcost : innerCost techs tm ≤ 2 := by unfold innerCost; split <;> omega
        unfold impliesFuel
        omega
      | ok a' =>
        rw [hc, exceptBindOk] at h
        exact ihl a' h
  exact aux tms []

/-- `resolve_implies_inner` preserves duplicate-freeness of accumulated
technology names: a technology already recorded is never appended again. -/
theorem resolve_implies_inner_nodup :
    ∀ (techs : List (String × Technology)) (fuel : Nat) (acc : List TechMatch)
      (tm : TechMatch) (res : List TechMatch),
      resolve_implies_inner techs fuel acc tm = Except.ok res →
      (acc.map (fun x => x.technology.name)).Nodup →
      (res.map (fun x => x.technology.name)).Nodup := by
  intro techs fuel
  induction fuel with
  | zero =>
    intro acc tm res h
    exact absurd h (by simp [resolve_implies_inner])
  | succ fuel ih =>
    intro acc tm res h hnd
    by_cases hmem : acc.any (fun x => TechMatch.pyEq x tm) = true
    · simp only [resolve_implies_inner, hmem, if_true] at h
      cases h
      exact hnd
    · simp only [resolve_implies_inner, hmem, if_false] at h
      cases hbi : buildImplies techs tm with
      | error e => rw [hbi] at h; exact absurd h (by simp)
      | ok derived =>
        rw [hbi] at h
        have hnd1 : ((acc ++ [tm]).map (fun x => x.technology.name)).Nodup := by
          simp only [List.map_append, List.map_cons, List.map_nil]
          rw [List.nodup_append]
          refine ⟨hnd, List.nodup_singleton _, ?_⟩
          intro x hx hx'
          rw [List.mem_singleton] at hx'
          subst hx'
          exact name_not_mem_of_not_any acc tm hmem hx
        have hfold : ∀ (l : List TechMatch) (a res : List TechMatch),
            l.foldlM (fun x d => resolve_implies_inner techs fuel x d) a =
              Except.ok res →
            (a.map (fun x => x.technology.name)).Nodup →
            (res.map (fun x => x.technology.name)).Nodup := by
          intro l
          induction l with
          | nil =>
            intro a res h hn
            rw [List.foldlM_nil] at h
            cases h
            exact hn
          | cons d rest ihl =>
            intro a res h hn
            rw [List.foldlM_cons] at h
            cases hc : resolve_implies_inner techs fuel a d with
            | error e => rw [hc, exceptBindErr] at h; exact absurd h (by simp)
            | ok a' =>
              rw [hc, exceptBindOk] at h
              exact ihl a' res h (ih a d a' hc hn)
        exact hfold derived (acc ++ [tm]) res h hnd1

/-- Technology names are pairwise distinct in any successful
`resolve_implies` output. -/
theorem resolve_implies_nodup :
    ∀ (tms : List TechMatch) (techs : List (String × Technology))
      (res : List TechMatch),
      resolve_implies tms techs = Except.ok res →
      (res.map (fun x => x.technology.name)).Nodup := by
  intro tms techs res h
  unfold resolve_implies at h
  have aux : ∀ (l : List TechMatch) (a res : List TechMatch),
      l.foldlM (fun acc tm =>
        resolve_implies_inner techs (impliesFuel techs) acc tm) a = Except.ok res →
      (a.map (fun x => x.technology.name)).Nodup →
      (res.map (fun x => x.technology.name)).Nodup := by
    intro l
    induction l with
    | nil =>
      intro a res h hn
      rw [List.foldlM_nil] at h
      cases h
      exact hn
    | cons tm rest ihl =>
      intro a res h hn
      rw [List.foldlM_cons] at h
      cases hc : resolve_implies_inner techs (impliesFuel techs) a tm with
      | error e => rw [hc, exceptBindErr] at h; exact absurd h (by simp)
      | ok a' =>
        rw [hc, exceptBindOk] at h
        exact ihl a' res h (resolve_implies_inner_nodup techs _ a tm a' hc hn)
  exact aux tms [] res h (by simp)

/-- `ImpliedFrom` is monotone in the result list (the parent stays inside). -/
theorem impliedFrom_mono (techs : List (String × Technology))
    (res res' : List TechMatch) (x : TechMatch)
    (hsub : ∀ y ∈ res, y ∈ res') (h : ImpliedFrom techs res x) :
    ImpliedFrom techs res' x := by
  obtain ⟨hv, p, hp, imp, himp, hlk, hconf⟩ := h
  exact ⟨hv, p, hsub p hp, imp, himp, hlk, hconf⟩

/-- Provenance invariant of `resolve_implies_inner`: every match in a
successful result was already accumulated, is the call's argument, or was
derived from a parent in the result by an `Imply` entry. -/
theorem resolve_implies_inner_from :
    ∀ (techs : List (String × Technology)) (fuel : Nat) (acc : List TechMatch)
      (tm : TechMatch) (res : List TechMatch),
      resolve_implies_inner techs fuel acc tm = Except.ok res →
      ∀ x ∈ res, x ∈ acc ∨ x = tm ∨ ImpliedFrom techs res x := by
  intro techs fuel
  induction fuel with
  | zero =>
    intro acc tm res h
    exact absurd h (by simp [resolve_implies_inner])
  | succ fuel ih =>
    intro acc tm res h
    by_cases hmem : acc.any (fun x => TechMatch.pyEq x tm) = true
    · simp only [resolve_implies_inner, hmem, if_true] at h
      cases h
      exact fun x hx => Or.inl hx
    · simp only [resolve_implies_inner, hmem, if_false] at h
      cases hbi : buildImplies techs tm with
      | error e => rw [hbi] at h; exact absurd h (by simp)
      | ok derived =>
        rw [hbi] at h
        have hder := buildImplies_ok_spec techs tm derived hbi
        have hfold : ∀ (l : List TechMatch) (a res : List TechMatch),
            (∀ d ∈ l, d.version = "" ∧ ∃ imp ∈ tm.technology.implies,
              List.lookup imp.name techs = some d.technology ∧
              d.confidence = min imp.confidence tm.confidence) →
            tm ∈ a →
            l.foldlM (fun x d => resolve_implies_inner techs fuel x d) a =
              Except.ok res →
            ∀ x ∈ res, x ∈ a ∨ ImpliedFrom techs res x := by
          intro l
          induction l with
          | nil =>
            intro a res _ _ h x hx
            rw [List.foldlM_nil] at h
            cases h
            exact Or.inl hx
          | cons d rest ihl =>
            intro a res hds htm h x hx
            rw [List.foldlM_cons] at h
            cases hc : resolve_implies_inner techs fuel a d with
            | error e => rw [hc, exceptBindErr] at h; exact absurd h (by simp)
            | ok a' =>
              rw [hc, exceptBindOk] at h
              have hpre : a <+: a' := resolve_implies_inner_extends techs fuel a d a' hc
              have hres : a' <+: res := resolve_implies_fold_extends techs fuel rest a' res h
              rcases ihl a' res (fun d' hd' => hds d' (List.mem_cons_of_mem _ hd'))
                  (hpre.subset htm) h x hx with hxa' | himp
              · rcases ih a d a' hc x hxa' with hxa | hxd | himp'
                · exact Or.inl hxa
                · subst hxd
                  obtain ⟨hv, imp, himp2, hlk, hconf⟩ := hds x (List.mem_cons_self _ _)
                  refine Or.inr ⟨hv, tm, ?_, imp, himp2, hlk, hconf⟩
                  exact hres.subset (hpre.subset htm)
                · exact Or.inr (impliedFrom_mono techs a' res x
                    (fun y hy => hres.subset hy) himp')
              · exact Or.inr himp
        intro x hx
        rcases hfold derived (acc ++ [tm]) res
            (fun d hd => ⟨(hder d hd).1, (hder d hd).2.2⟩)
            (List.mem_append_right _ (List.mem_cons_self _ _)) h x hx with hxa | himp
        · rcases List.mem_append.mp hxa with hxacc | hxtm
          · exact Or.inl hxacc
          · rw [List.mem_singleton] at hxtm
            exact Or.inr (Or.inl hxtm)
        · exact Or.inr (Or.inr himp)

/-- Provenance invariant of `resolve_implies`: every output match is a
directly matched input or was derived through an `Imply` of a parent in the
output. -/
theorem resolve_implies_from :
    ∀ (tms : List TechMatch) (techs : List (String × Technology))
      (res : List TechMatch),
      resolve_implies tms techs = Except.ok res →
      ∀ x ∈ res, x ∈ tms ∨ ImpliedFrom techs res x := by
  intro tms techs res h
  unfold resolve_implies at h
  have aux : ∀ (l a res : List TechMatch),
      l.foldlM (fun acc tm =>
        resolve_implies_inner techs (impliesFuel techs) acc tm) a = Except.ok res →
      ∀ x ∈ res, x ∈ a ∨ x ∈ l ∨ ImpliedFrom techs res x := by
    intro l
    induction l with
    | nil =>
      intro a res h x hx
      rw [List.foldlM_nil] at h
      cases h
      exact Or.inl hx
    | cons tm rest ihl =>
      intro a res h x hx
      rw [List.foldlM_cons] at h
      cases hc : resolve_implies_inner techs (impliesFuel techs) a tm with
      | error e => rw [hc, exceptBindErr] at h; exact absurd h (by simp)
      | ok a' =>
        rw [hc, exceptBindOk] at h
        have hres : a' <+: res := resolve_implies_fold_extends techs _ rest a' res h
        rcases ihl a' res h x hx with hxa' | hxl | himp
        · rcases resolve_implies_inner_from techs _ a tm a' hc x hxa' with hxa | hxtm | himp'
          · exact Or.inl hxa
          · refine Or.inr (Or.inl ?_)
            rw [hxtm]
            exact List.mem_cons_self _ _
          · exact Or.inr (Or.inr (impliedFrom_mono techs a' res x
              (fun y hy => hres.subset hy) himp'))
        · exact Or.inr (Or.inl (List.mem_cons_of_mem _ hxl))
        · exact Or.inr (Or.inr himp)
  intro x hx
  rcases aux tms [] res h x hx with hnil | h'
  · exact absurd hnil (List.not_mem_nil x)
  · exact h'

/-- C5: `resolve_implies` terminates for every rule set (the fuel budget
`impliesFuel` modelling Python's unbounded recursion is never exhausted,
cyclic implication graphs included), each technology is appended at most
once (output names are duplicate-free), the accumulated list is only ever
extended — so the entry a technology received on first visit is never
overwritten by later propagated confidences — and the two-cycle `A implies
B implies A` with `A` matched resolves to exactly `[A, B]`. -/
theorem claim_C5 :
    (∀ (tms : List TechMatch) (techs : List (String × Technology)),
        resolve_implies tms techs ≠ Except.error PyError.fuelExhausted) ∧
    (∀ (techs : List (String × Technology)) (fuel : Nat) (acc : List TechMatch)
        (tm : TechMatch) (res : List TechMatch),
        resolve_implies_inner techs fuel acc tm = Except.ok res → acc <+: res) ∧
    (∀ (tms : List TechMatch) (techs : List (String × Technology))
        (res : List TechMatch),
        resolve_implies tms techs = Except.ok res →
        (res.map (fun x => x.technology.name)).Nodup) ∧
    resolve_implies [⟨implTechA, 100, "v"⟩] implTechs =
      Except.ok [⟨implTechA, 100, "v"⟩, ⟨implTechB, 100, ""⟩] :=
  ⟨resolve_implies_ne_exhaust, resolve_implies_inner_extends,
   resolve_implies_nodup, rfl⟩

/-- Witness for `claim_C5`'s duplicate-freeness conjunct at the cyclic
two-technology rule set. -/
theorem claim_C5_witness :
    (([⟨implTechA, 100, "v"⟩, ⟨implTechB, 100, ""⟩] : List TechMatch).map
      (fun x => x.technology.name)).Nodup :=
  claim_C5.2.2.1 [⟨implTechA, 100, "v"⟩] implTechs
    [⟨implTechA, 100, "v"⟩, ⟨implTechB, 100, ""⟩] rfl

/-- C6: every technology in the output of `resolve_implies` that is not
among the directly matched inputs (no input match carries its name) has an
empty version, and its confidence is `min(imply.confidence,
parent.confidence)` for the parent match `p` in the output from which it
was first reached (the existential witnesses the `Imply` edge used). -/
theorem claim_C6 :
    ∀ (tms : List TechMatch) (techs : List (String × Technology))
      (res : List TechMatch),
      resolve_implies tms techs = Except.ok res →
      ∀ x ∈ res, (∀ tm ∈ tms, tm.technology.name ≠ x.technology.name) →
        x.version = "" ∧ ∃ p ∈ res, ∃ imp ∈ p.technology.implies,
          List.lookup imp.name techs = some x.technology ∧
          x.confidence = min imp.confidence p.confidence := by
  intro tms techs res h x hx hname
  rcases resolve_implies_from tms techs res h x hx with hin | himp
  · exact absurd rfl (hname x hin)
  · exact himp

/-- Witness for `claim_C6`: in the cyclic demo rule set, `B` is reached only
through `A`'s `Imply` edge and carries the empty version and clamped
confidence. -/
theorem claim_C6_witness :
    (⟨implTechB, 100, ""⟩ : TechMatch).version = "" ∧
    ∃ p ∈ [(⟨implTechA, 100, "v"⟩ : TechMatch), ⟨implTechB, 100, ""⟩],
      ∃ imp ∈ p.technology.implies,
        List.lookup imp.name implTechs = some (⟨implTechB, 100, ""⟩ : TechMatch).technology ∧
        (⟨implTechB, 100, ""⟩ : TechMatch).confidence = min imp.confidence p.confidence :=
  claim_C6 [⟨implTechA, 100, "v"⟩] implTechs
    [⟨implTechA, 100, "v"⟩, ⟨implTechB, 100, ""⟩] rfl ⟨implTechB, 100, ""⟩
    (List.mem_cons_of_mem _ (List.mem_cons_self _ _))
    (by
      intro tm htm
      rw [List.mem_singleton] at htm
      subst htm
      decide)

/-- C7: counterexample to the claim as stated.  A rule set whose technology
`G` implies the absent name `ghost`: resolution surfaces the opaque
dictionary-lookup failure (`KeyError 'ghost'` from
`technologies[imply.name]`), not the distinct data-integrity error
(`MissingTechnologyReference`) the claim promises. -/
theorem claim_C7_counterexample :
    resolve_implies [⟨ghostTech, 100, ""⟩] ghostTechs =
      Except.error (PyError.keyError "ghost") ∧
    resolve_implies [⟨ghostTech, 100, ""⟩] ghostTechs ≠
      Except.error (PyError.missingTechnologyReference "ghost") := by
  refine ⟨rfl, ?_⟩
  intro h
  rw [show resolve_implies [⟨ghostTech, 100, ""⟩] ghostTechs =
      Except.error (PyError.keyError "ghost") from rfl] at h
  simp at h

/-- C7 (amended): an `implies` entry naming a technology absent from the
rule set makes `resolve_implies` surface the opaque `KeyError` of
`technologies[imply.name]` at resolution time (here for a first dangling
entry of a fresh match); `resolve_excludes` takes no rule set at all and
silently ignores dangling exclude names. -/
theorem claim_C7_amended :
    ∀ (techs : List (String × Technology)) (tm : TechMatch) (imp : Imply)
      (rest : List Imply),
      tm.technology.implies = imp :: rest →
      List.lookup imp.name techs = none →
      resolve_implies [tm] techs = Except.error (PyError.keyError imp.name) := by
  intro techs tm imp rest h1 h2
  unfold resolve_implies
  rw [List.foldlM_cons]
  have hinner : resolve_implies_inner techs (impliesFuel techs) [] tm =
      Except.error (PyError.keyError imp.name) := by
    have hfuel : impliesFuel techs = (techs.length + 1) + 1 := rfl
    rw [hfuel]
    simp only [resolve_implies_inner, List.any_nil, Bool.false_eq_true, if_false]
    have hbi : buildImplies techs tm = Except.error (PyError.keyError imp.name) := by
      unfold buildImplies
      rw [h1, List.mapM_cons, deriveImply_none techs tm imp h2, exceptBindErr]
    rw [hbi]
  rw [hinner, exceptBindErr]

/-- Witness for `claim_C7_amended` at the concrete dangling rule set. -/
theorem claim_C7_amended_witness :
    resolve_implies [⟨ghostTech, 100, ""⟩] ghostTechs =
      Except.error (PyError.keyError "ghost") :=
  claim_C7_amended ghostTechs ⟨ghostTech, 100, ""⟩ ⟨"ghost", 50⟩ [] rfl rfl

/-! ## C10: `discover_technologies` never consults `js` patterns -/

/-- `_match_patterns` commutes with erasing the technology's `js` field. -/
theorem match_patterns_strip (ps : List Pattern) (t : Technology) (v : String) :
    match_patterns ps t.stripJs v = (match_patterns ps t v).map pmStrip := by
  induction ps with
  | nil => rfl
  | cons p rest ih =>
    by_cases h : (p.search v).isSome = true
    · simp only [match_patterns, List.flatMap_cons, h, if_true, List.map_append] at *
      rw [ih]
      rfl
    · simp only [match_patterns, List.flatMap_cons, h, Bool.false_eq_true, if_false,
        List.nil_append] at *
      exact ih

/-- `match_str` commutes with erasing `js`. -/
theorem match_str_strip (t : Technology) (f : StrField) (v : String) :
    match_str t.stripJs f v = (match_str t f v).map pmStrip := by
  have hget : t.stripJs.strFieldGet f = t.strFieldGet f := by cases f <;> rfl
  unfold match_str
  rw [hget, match_patterns_strip]

/-- `match_list` commutes with erasing `js`. -/
theorem match_list_strip (t : Technology) (values : List String) :
    match_list t.stripJs values = (match_list t values).map pmStrip := by
  unfold match_list
  rw [List.map_flatMap]
  apply flatMap_congr_mem
  intro v _
  exact match_patterns_strip t.scripts t v

/-- `match_pairs` on a non-`js` field commutes with erasing `js`. -/
theorem match_pairs_strip (t : Technology) (f : PairField)
    (pairs : List (String × List String)) (h : f ≠ PairField.js) :
    match_pairs t.stripJs f pairs = (match_pairs t f pairs).map pmStrip := by
  have hget : t.stripJs.pairFieldGet f = t.pairFieldGet f := by
    cases f with
    | cookies => rfl
    | headers => rfl
    | meta => rfl
    | js => exact absurd rfl h
  simp only [match_pairs, hget]
  rw [List.map_flatMap]
  apply flatMap_congr_mem
  intro kv _
  rw [List.map_flatMap]
  apply flatMap_congr_mem
  intro v _
  exact match_patterns_strip kv.2 t v

/-- `match_all` with no `js_vars` commutes with erasing every technology's
`js` collection. -/
theorem match_all_strip (techs : List (String × Technology)) (url html : String)
    (scripts : List String) (cookies metas headers : List (String × List String)) :
    match_all (stripTechs techs) url html scripts cookies metas headers [] =
      (match_all techs url html scripts cookies metas headers []).map pmStrip := by
  unfold match_all
  have hmap : (stripTechs techs).map Prod.snd =
      (techs.map Prod.snd).map Technology.stripJs := by
    simp only [stripTechs, List.map_map]
    rfl
  rw [hmap, List.flatMap_map, List.map_flatMap]
  apply flatMap_congr_mem
  intro t _
  have e1 : (if url ≠ "" then match_url t.stripJs url else []) =
      (if url ≠ "" then match_url t url else []).map pmStrip := by
    by_cases hc : url = "" <;> simp [hc, match_url, match_str_strip]
  have e2 : (if headers ≠ [] then match_headers t.stripJs headers else []) =
      (if headers ≠ [] then match_headers t headers else []).map pmStrip := by
    by_cases hc : headers = [] <;>
      simp [hc, match_headers, match_pairs_strip t PairField.headers headers
        (by simp)]
  have e3 : (if cookies ≠ [] then match_cookies t.stripJs cookies else []) =
      (if cookies ≠ [] then match_cookies t cookies else []).map pmStrip := by
    by_cases hc : cookies = [] <;>
      simp [hc, match_cookies, match_pairs_strip t PairField.cookies cookies
        (by simp)]
  have e4 : (if html ≠ "" then match_html t.stripJs html else []) =
      (if html ≠ "" then match_html t html else []).map pmStrip := by
    by_cases hc : html = "" <;> simp [hc, match_html, match_str_strip]
  have e5 : (if metas ≠ [] then match_metas t.stripJs metas else []) =
      (if metas ≠ [] then match_metas t metas else []).map pmStrip := by
    by_cases hc : metas = [] <;>
      simp [hc, match_metas, match_pairs_strip t PairField.meta metas (by simp)]
  have e6 : (if scripts ≠ [] then match_scripts t.stripJs scripts else []) =
      (if scripts ≠ [] then match_scripts t scripts else []).map pmStrip := by
    by_cases hc : scripts = [] <;> simp [hc, match_scripts, match_list_strip]
  have e7 : (if ([] : List (String × List String)) ≠ [] then
      match_js_vars t.stripJs [] else []) =
      (if ([] : List (String × List String)) ≠ [] then
        match_js_vars t [] else []).map pmStrip := by
    simp
  rw [e1, e2, e3, e4, e5, e6, e7]
  simp only [List.map_append]

/-- Set deduplication commutes with erasing `js`: the hash triple and
`__eq__` only consult names, keys and values. -/
theorem pydedup_strip (pms : List PatternMatch) :
    pydedup (pms.map pmStrip) = (pydedup pms).map pmStrip := by
  unfold pydedup
  have aux : ∀ (l acc : List PatternMatch),
      (l.map pmStrip).foldl (fun acc pm =>
          if acc.any (fun q => hashTriple q == hashTriple pm && PatternMatch.pyEq q pm)
          then acc else acc ++ [pm]) (acc.map pmStrip) =
        (l.foldl (fun acc pm =>
          if acc.any (fun q => hashTriple q == hashTriple pm && PatternMatch.pyEq q pm)
          then acc else acc ++ [pm]) acc).map pmStrip := by
    intro l
    induction l with
    | nil => intro acc; rfl
    | cons pm rest ih =>
      intro acc
      have heq : ((acc.map pmStrip).any (fun q =>
          hashTriple q == hashTriple (pmStrip pm) && PatternMatch.pyEq q (pmStrip pm))) =
          (acc.any (fun q => hashTriple q == hashTriple pm && PatternMatch.pyEq q pm)) := by
        rw [List.any_map]
        rfl
      simp only [List.map_cons, List.foldl_cons, heq]
      by_cases hc : acc.any (fun q =>
          hashTriple q == hashTriple pm && PatternMatch.pyEq q pm) = true
      · rw [if_pos hc, if_pos hc]
        exact ih acc
      · rw [if_neg hc, if_neg hc]
        have : acc.map pmStrip ++ [pmStrip pm] = (acc ++ [pm]).map pmStrip := by
          simp
        rw [this]
        exact ih (acc ++ [pm])
  exact aux pms []

/-- The inner accumulation of `extract_techno_matches` is unchanged by
erasing `js`: it only reads names, confidences and versions. -/
theorem extractInner_strip (pms : List PatternMatch) (pm : PatternMatch) :
    extractInner (pms.map pmStrip) (pmStrip pm) = extractInner pms pm := by
  unfold extractInner
  rw [List.foldl_map]
  rfl

/-- `extract_techno_matches` commutes with erasing `js`. -/
theorem extract_strip (pms : List PatternMatch) :
    extract_techno_matches (pms.map pmStrip) =
      (extract_techno_matches pms).map tmStrip := by
  unfold extract_techno_matches
  have aux : ∀ (l : List PatternMatch) (tms : List TechMatch),
      (l.map pmStrip).foldl (fun acc2 pm =>
          if acc2.any (fun tm => patternMatchEqTech pm tm) then acc2
          else acc2 ++ [(⟨pm.technology,
            (extractInner (pms.map pmStrip) pm).1,
            (extractInner (pms.map pmStrip) pm).2⟩ : TechMatch)]) (tms.map tmStrip) =
        (l.foldl (fun acc2 pm =>
          if acc2.any (fun tm => patternMatchEqTech pm tm) then acc2
          else acc2 ++ [(⟨pm.technology,
            (extractInner pms pm).1,
            (extractInner pms pm).2⟩ : TechMatch)]) tms).map tmStrip := by
    intro l
    induction l with
    | nil => intro tms; rfl
    | cons pm rest ih =>
      intro tms
      have heq : ((tms.map tmStrip).any (fun tm => patternMatchEqTech (pmStrip pm) tm)) =
          (tms.any (fun tm => patternMatchEqTech pm tm)) := by
        rw [List.any_map]
        rfl
      simp only [List.map_cons, List.foldl_cons, heq]
      by_cases hc : tms.any (fun tm => patternMatchEqTech pm tm) = true
      · rw [if_pos hc, if_pos hc]
        exact ih tms
      · rw [if_neg hc, if_neg hc]
        have hstep : tms.map tmStrip ++ [(⟨(pmStrip pm).technology,
            (extractInner (pms.map pmStrip) (pmStrip pm)).1,
            (extractInner (pms.map pmStrip) (pmStrip pm)).2⟩ : TechMatch)] =
            (tms ++ [(⟨pm.technology,
              (extractInner pms pm).1,
              (extractInner pms pm).2⟩ : TechMatch)]).map tmStrip := by
          rw [extractInner_strip]
          simp [tmStrip, pmStrip, Technology.stripJs]
        rw [hstep]
        exact ih (tms ++ [(⟨pm.technology,
          (extractInner pms pm).1,
          (extractInner pms pm).2⟩ : TechMatch)])
  exact aux pms []

/-- Rule-set lookup commutes with erasing `js` throughout the rule set. -/
theorem lookup_strip (techs : List (String × Technology)) (k : String) :
    List.lookup k (stripTechs techs) =
      (List.lookup k techs).map Technology.stripJs := by
  induction techs with
  | nil => rfl
  | cons kv rest ih =>
    simp only [stripTechs, List.map_cons, List.lookup]
    cases he : k == kv.1 with
    | true => rfl
    | false => simpa [stripTechs] using ih

/-- `deriveImply` commutes with erasing `js`. -/
theorem deriveImply_strip (techs : List (String × Technology)) (tm : TechMatch)
    (imp : Imply) :
    deriveImply (stripTechs techs) (tmStrip tm) imp =
      (deriveImply techs tm imp).map tmStrip := by
  unfold deriveImply
  rw [lookup_strip]
  cases h : List.lookup imp.name techs with
  | none => rfl
  | some t => rfl

/-- `buildImplies` commutes with erasing `js`. -/
theorem buildImplies_strip (techs : List (String × Technology)) (tm : TechMatch) :
    buildImplies (stripTechs techs) (tmStrip tm) =
      (buildImplies techs tm).map (List.map tmStrip) := by
  unfold buildImplies
  have aux : ∀ (l : List Imply),
      l.mapM (deriveImply (stripTechs techs) (tmStrip tm)) =
        (l.mapM (deriveImply techs tm)).map (List.map tmStrip) := by
    intro l
    induction l with
    | nil => rfl
    | cons imp rest ih =>
      rw [List.mapM_cons, List.mapM_cons, deriveImply_strip, ih]
      cases h1 : deriveImply techs tm imp with
      | error e => rfl
      | ok d =>
        cases h2 : rest.mapM (deriveImply techs tm) with
        | error e => rfl
        | ok l' => rfl
  exact aux tm.technology.implies

/-- `resolve_implies_inner` commutes with erasing `js`. -/
theorem resolve_implies_inner_strip :
    ∀ (techs : List (String × Technology)) (fuel : Nat) (acc : List TechMatch)
      (tm : TechMatch),
      resolve_implies_inner (stripTechs techs) fuel (acc.map tmStrip) (tmStrip tm) =
        (resolve_implies_inner techs fuel acc tm).map (List.map tmStrip) := by
  intro techs fuel
  induction fuel with
  | zero => intro acc tm; rfl
  | succ fuel ih =>
    intro acc tm
    have hmemeq : ((acc.map tmStrip).any (fun x => TechMatch.pyEq x (tmStrip tm))) =
        (acc.any (fun x => TechMatch.pyEq x tm)) := by
      rw [List.any_map]
      rfl
    by_cases hmem : acc.any (fun x => TechMatch.pyEq x tm) = true
    · simp only [resolve_implies_inner, hmemeq, hmem, if_true]
      rfl
    · simp only [resolve_implies_inner, hmemeq, hmem, if_false]
      rw [buildImplies_strip]
      cases hbi : buildImplies techs tm with
      | error e => rfl
      | ok derived =>
        have hacc : acc.map tmStrip ++ [tmStrip tm] = (acc ++ [tm]).map tmStrip := by
          simp
        have hfold : ∀ (l a : List TechMatch),
            (l.map tmStrip).foldlM (fun x d =>
                resolve_implies_inner (stripTechs techs) fuel x d) (a.map tmStrip) =
              (l.foldlM (fun x d =>
                resolve_implies_inner techs fuel x d) a).map (List.map tmStrip) := by
          intro l
          induction l with
          | nil => intro a; rfl
          | cons d rest ihl =>
            intro a
            rw [List.map_cons, List.foldlM_cons, List.foldlM_cons, ih a d]
            cases hc : resolve_implies_inner techs fuel a d with
            | error e => rfl
            | ok a' =>
              have h1 : (Except.map (List.map tmStrip) (Except.ok a') :
                  Except PyError (List TechMatch)) = Except.ok (a'.map tmStrip) := rfl
              rw [h1, exceptBindOk, exceptBindOk, ihl a']
        show Except.map (List.map tmStrip) (Except.ok derived) >>= _ = _
        rw [show Except.map (List.map tmStrip) (Except.ok derived) =
          Except.ok (derived.map tmStrip) from rfl, exceptBindOk, hacc, hfold]
        rfl

/-- `resolve_implies` commutes with erasing `js`. -/
theorem resolve_implies_strip (tms : List TechMatch)
    (techs : List (String × Technology)) :
    resolve_implies (tms.map tmStrip) (stripTechs techs) =
      (resolve_implies tms techs).map (List.map tmStrip) := by
  unfold resolve_implies
  have hfuel : impliesFuel (stripTechs techs) = impliesFuel techs := by
    simp [impliesFuel, stripTechs]
  rw [hfuel]
  have aux : ∀ (l a : List TechMatch),
      (l.map tmStrip).foldlM (fun acc tm =>
          resolve_implies_inner (stripTechs techs) (impliesFuel techs) acc tm)
          (a.map tmStrip) =
        (l.foldlM (fun acc tm =>
          resolve_implies_inner techs (impliesFuel techs) acc tm) a).map
          (List.map tmStrip) := by
    intro l
    induction l with
    | nil => intro a; rfl
    | cons tm rest ihl =>
      intro a
      rw [List.map_cons, List.foldlM_cons, List.foldlM_cons,
        resolve_implies_inner_strip techs (impliesFuel techs) a tm]
      cases hc : resolve_implies_inner techs (impliesFuel techs) a tm with
      | error e => rfl
      | ok a' =>
        have h1 : (Except.map (List.map tmStrip) (Except.ok a') :
            Except PyError (List TechMatch)) = Except.ok (a'.map tmStrip) := rfl
        rw [h1, exceptBindOk, exceptBindOk, ihl a']
  exact aux tms []

/-- `resolve_excludes` commutes with erasing `js`: it only reads technology
names and exclude lists, which erasure preserves. -/
theorem resolve_excludes_strip_aux :
    ∀ (n : Nat) (l : List TechMatch), l.length ≤ n →
      resolve_excludes (l.map tmStrip) = (resolve_excludes l).map tmStrip := by
  intro n
  induction n with
  | zero =>
    intro l hl
    have : l = [] := List.length_eq_zero.mp (Nat.le_zero.mp hl)
    subst this
    simp [resolve_excludes]
  | succ n ih =>
    intro l hl
    match l with
    | [] => simp [resolve_excludes]
    | tm :: rest =>
      simp only [List.map_cons, resolve_excludes]
      rw [List.filter_map]
      have hpred : ((fun x => !(((tmStrip tm).technology.excludes.map
          (fun ex => ex.name)).contains x.technology.name)) ∘ tmStrip) =
          (fun x => !((tm.technology.excludes.map
            (fun ex => ex.name)).contains x.technology.name)) := rfl
      rw [hpred]
      rw [ih (rest.filter (fun x => !((tm.technology.excludes.map
        (fun ex => ex.name)).contains x.technology.name))) (by
          have := List.length_filter_le (fun x => !((tm.technology.excludes.map
            (fun ex => ex.name)).contains x.technology.name)) rest
          simp only [List.length_cons] at hl
          omega)]

/-- `resolve_excludes` commutes with erasing `js`. -/
theorem resolve_excludes_strip (l : List TechMatch) :
    resolve_excludes (l.map tmStrip) = (resolve_excludes l).map tmStrip :=
  resolve_excludes_strip_aux l.length l le_rfl

/-- `resolve_techno_matches` commutes with erasing `js`. -/
theorem resolve_techno_matches_strip (techs : List (String × Technology))
    (pms : List PatternMatch) :
    resolve_techno_matches (stripTechs techs) (pms.map pmStrip) =
      (resolve_techno_matches techs pms).map (List.map tmStrip) := by
  simp only [resolve_techno_matches]
  rw [pydedup_strip, extract_strip, resolve_implies_strip]
  cases h : resolve_implies (extract_techno_matches (pydedup pms)) techs with
  | error e => rfl
  | ok tms =>
    have h1 : (Except.map (List.map tmStrip) (Except.ok tms) :
        Except PyError (List TechMatch)) = Except.ok (tms.map tmStrip) := rfl
    rw [h1]
    show Except.ok (resolve_excludes (tms.map tmStrip)) =
      Except.ok ((resolve_excludes tms).map tmStrip)
    rw [resolve_excludes_strip]

/-- `discover_technologies` commutes with erasing `js`: it passes no
`js_vars`, so the `js` collections are never consulted. -/
theorem discover_strip (techs : List (String × Technology)) (url html : String)
    (scripts : List String) (cookies metas headers : List (String × List String)) :
    discover_technologies (stripTechs techs) url html scripts cookies metas headers =
      (discover_technologies techs url html scripts cookies metas headers).map
        (List.map tmStrip) := by
  unfold discover_technologies
  rw [match_all_strip, resolve_techno_matches_strip]

/-- C10: `discover_technologies` accepts no `js_vars` input and calls
`match_all` without one, so JS-variable patterns are never evaluated: two
rule sets that agree after erasing every technology's `js` collection
produce identical observable output (technology name, confidence, version
of every reported match, and identical error behaviour) on all signals. -/
theorem claim_C10 :
    ∀ (techs1 techs2 : List (String × Technology)),
      stripTechs techs1 = stripTechs techs2 →
      ∀ (url html : String) (scripts : List String)
        (cookies metas headers : List (String × List String)),
        (discover_technologies techs1 url html scripts cookies metas headers).map
            (List.map obsTM) =
          (discover_technologies techs2 url html scripts cookies metas headers).map
            (List.map obsTM) := by
  intro t1 t2 h url html scripts cookies metas headers
  have key : ∀ (techs : List (String × Technology)),
      (discover_technologies techs url html scripts cookies metas headers).map
          (List.map obsTM) =
        (discover_technologies (stripTechs techs) url html scripts cookies metas
          headers).map (List.map obsTM) := by
    intro techs
    rw [discover_strip]
    cases hd : discover_technologies techs url html scripts cookies metas headers with
    | error e => rfl
    | ok res =>
      have hfun : obsTM ∘ tmStrip = obsTM := by
        funext tm
        rfl
      show Except.ok (res.map obsTM) = Except.ok ((res.map tmStrip).map obsTM)
      rw [List.map_map, hfun]
  rw [key t1, key t2, h]

/-- Witness for `claim_C10`: a rule set where `A` carries a js pattern
collection versus one where it does not — the observable discovery output
coincides. -/
theorem claim_C10_witness :
    (discover_technologies [("A", implTechA), ("B", implTechB)]
        "" "" [] [] [] []).map (List.map obsTM) =
      (discover_technologies [("A", implTechAJs), ("B", implTechB)]
        "" "" [] [] [] []).map (List.map obsTM) :=
  claim_C10 [("A", implTechA), ("B", implTechB)] [("A", implTechAJs), ("B", implTechB)]
    rfl "" "" [] [] [] []
